import Mathlib

/-!
Verification development for the Simple-Irc-Client network gateway.

The development shallowly embeds the two core components of the repository:

* the IRC wire-protocol engine of `src/irc-client.ts` (class `IrcClient`):
  CRLF line framing over a byte buffer, the 2 MiB receive-buffer overflow
  guard, the RPL_WELCOME (001) detection pattern, automatic PING replies,
  and the keepalive timers (30 s ping interval, pong timeout);

* the WebSocket gateway of `src/main.ts`: upgrade-request validation,
  the fixed-window inbound rate limiter, and the session-scoped ordered
  encrypted delivery of server lines to the WebSocket client.

Byte streams are `List Nat` (CR is 13, LF is 10); decoded protocol lines
are `List Char`.  Asynchronous behaviour (timers, encryption completion)
is modelled by explicit state machines whose external events are chosen
by an adversarial schedule.
-/

namespace SICNet

/-! ### Constants (irc-client.ts / main.ts) -/

/-- Maximum receive buffer size before dropping the connection (2 MiB). -/
def MAX_RECEIVE_BUFFER_SIZE : Nat := 2 * 1024 * 1024

/-- Interval for sending PING keepalive messages (30 seconds). -/
def PING_INTERVAL_MS : Nat := 30000

/-- Default timeout for receiving a server response after sending PING. -/
def DEFAULT_PONG_TIMEOUT_MS : Nat := 120000

/-- Characters of a string literal, used to write protocol lines. -/
def str (s : String) : List Char := s.data

/-- Strip CR and LF characters, as the stripCRLF helper of the source
does with the regex replace of CR and LF by the empty string. -/
def stripCRLF (l : List Char) : List Char :=
  l.filter (fun c => !(c == '\r') && !(c == '\n'))

/-! ### CRLF framing (irc-client.ts, handleIncomingData)

The source repeatedly looks up the first occurrence of the CRLF
terminator in the receive buffer, removes the prefix up to it as one
line, and keeps the remainder buffered.  `scanLines` is that loop as a
pure function from a buffer to the extracted lines (in order) and the
terminator-free residue that stays buffered. -/

/-- Extraction loop of handleIncomingData: split the buffer at every
CRLF, returning the list of lines and the leftover residue. -/
def scanLines : List Nat → List (List Nat) × List Nat
  | [] => ([], [])
  | a :: rest =>
    match rest with
    | [] => ([], [a])
    | b :: rest2 =>
      if a = 13 ∧ b = 10 then
        let p := scanLines rest2
        ([] :: p.1, p.2)
      else
        let p := scanLines (b :: rest2)
        match p.1 with
        | [] => ([], a :: p.2)
        | l :: ls => ((a :: l) :: ls, p.2)

/-- Rebuild a byte stream from lines and a residue, putting the CRLF
terminator after every line. -/
def joinLines (ls : List (List Nat)) (r : List Nat) : List Nat :=
  ls.foldr (fun l acc => l ++ 13 :: 10 :: acc) r

/-- Feeding a sequence of data chunks to the framing loop: each chunk is
appended to the buffer, complete lines are extracted, and non-empty
lines are emitted as raw events (the source skips lines of length 0).
Returns the emitted lines and the final buffer. -/
def runFrames : List Nat → List (List Nat) → List (List Nat) × List Nat
  | buf, [] => ([], buf)
  | buf, c :: cs =>
    let p := scanLines (buf ++ c)
    let q := runFrames p.2 cs
    (p.1.filter (fun l => !l.isEmpty) ++ q.1, q.2)

/-! ### Receive buffer overflow (irc-client.ts, handleIncomingData)

After extracting lines, the source destroys the socket when the
residual buffer is longer than 2 MiB.  A destroyed socket delivers no
further data events. -/

/-- Buffer/overflow state of one connection. -/
structure ConnBuf where
  buf : List Nat
  destroyed : Bool
deriving DecidableEq

/-- Fresh connection: empty buffer, socket alive. -/
def connInit : ConnBuf := ⟨[], false⟩

/-- One data delivery: append, extract, and destroy the socket when the
residue exceeds 2 MiB.  A destroyed socket emits no data events, so the
state is unchanged. -/
def stepConn (s : ConnBuf) (d : List Nat) : ConnBuf :=
  if s.destroyed then s
  else
    let r := (scanLines (s.buf ++ d)).2
    ⟨r, decide (MAX_RECEIVE_BUFFER_SIZE < r.length)⟩

/-- Deliver a sequence of chunks. -/
def runConn : ConnBuf → List (List Nat) → ConnBuf
  | s, [] => s
  | s, c :: cs => runConn (stepConn s c) cs

/-- Number of deliveries at which the destroy call fires (the socket
goes from alive to destroyed). -/
def destroySteps : ConnBuf → List (List Nat) → Nat
  | _, [] => 0
  | s, c :: cs =>
    let s2 := stepConn s c
    (if !s.destroyed && s2.destroyed then 1 else 0) + destroySteps s2 cs

/-! ### RPL_WELCOME pattern (irc-client.ts, RPL_WELCOME_PATTERN)

The source tests each line against the regular expression
`^(@\S+ )?:[^\s!@]+ 001 `: an optional IRCv3 tag block (an at sign,
one or more non-whitespace characters, a space), then a colon, one or
more characters that are neither whitespace nor an exclamation mark nor
an at sign, then a space, the token 001 and a space.  Because the
character classes exclude the space that must follow them, the regex
engine can only match each plus-group as the maximal class run, so the
match is equivalent to the deterministic scan below. -/

/-- Whitespace class of JavaScript regular expressions (backslash-s). -/
def isJsSpace (c : Char) : Bool :=
  let n := c.toNat
  n = 0x20 || n = 0x9 || n = 0xA || n = 0xB || n = 0xC || n = 0xD ||
  n = 0xA0 || n = 0x1680 || (0x2000 ≤ n && n ≤ 0x200A) ||
  n = 0x2028 || n = 0x2029 || n = 0x202F || n = 0x205F || n = 0x3000 ||
  n = 0xFEFF

/-- Character class of the source token of the welcome pattern:
anything except whitespace, an exclamation mark, or an at sign. -/
def welcomeClass (c : Char) : Bool :=
  !isJsSpace c && !(c == '!') && !(c == '@')

/-- Match of the token 001 framed by spaces, required after the source
run of the welcome pattern. -/
def welcomeTail : List Char → Bool
  | d1 :: d2 :: d3 :: d4 :: d5 :: _ =>
    d1 == ' ' && d2 == '0' && d3 == '0' && d4 == '1' && d5 == ' '
  | _ => false

/-- Match of the mandatory part of the welcome pattern: a colon, a
non-empty run of source characters, a space, 001, a space. -/
def matchWelcomeCore : List Char → Bool
  | [] => false
  | c :: rest =>
    c == ':' && !(rest.takeWhile welcomeClass).isEmpty &&
      welcomeTail (rest.dropWhile welcomeClass)

/-- Match of the optional leading tag block followed by the mandatory
part: an at sign, a non-empty run of non-whitespace, a space, then the
core pattern. -/
def matchWelcomeTag : List Char → Bool
  | [] => false
  | c :: rest =>
    c == '@' && !(rest.takeWhile (fun x => !isJsSpace x)).isEmpty &&
      (match rest.dropWhile (fun x => !isJsSpace x) with
       | [] => false
       | d :: rest2 => d == ' ' && matchWelcomeCore rest2)

/-- Match of the whole welcome pattern: the core pattern directly, or
the tag block followed by the core pattern. -/
def matchWelcome (cs : List Char) : Bool :=
  matchWelcomeCore cs || matchWelcomeTag cs

/-! ### Per-line processing (irc-client.ts, handleIrcLine) -/

/-- Events emitted by the IrcClient event emitter. -/
inductive ClientEv where
  | rawEv (line : List Char) (fromServer : Bool)
  | connectedEv
  | socketConnectedEv
  | closeEv
deriving DecidableEq

/-- Test of line.startsWith of the five characters PING and a space. -/
def pingQuery : List Char → Bool
  | c1 :: c2 :: c3 :: c4 :: c5 :: _ =>
    c1 == 'P' && c2 == 'I' && c3 == 'N' && c4 == 'G' && c5 == ' '
  | _ => false

/-- Automatic PONG reply: when the line starts with the PING prefix,
answer with PONG followed by the rest of the line after the first five
characters (line.slice 5 in the source). -/
def pongReply (line : List Char) : Option (List Char) :=
  if pingQuery line then some (str "PONG " ++ line.drop 5) else none

/-- Events emitted for one received non-empty line: always a raw event
tagged from server; then, when the line is not a PING query and matches
the welcome pattern, the connected signal. -/
def lineEvents (line : List Char) : List ClientEv :=
  ClientEv.rawEv line true ::
    (if pingQuery line then []
     else if matchWelcome line then [ClientEv.connectedEv] else [])

/-! ### Timed client machine (irc-client.ts)

State of one IrcClient after its transport connected, together with the
two timers of the source: the recurring 30 s ping interval and the
one-shot pong timeout armed at each ping.  Time is absolute
milliseconds.  `sent` records every line written to the socket (after
CR/LF stripping, oldest first); `emitted` records emitter events. -/

/-- Connection state of the timed IrcClient model. -/
structure IrcConn where
  alive : Bool
  writable : Bool
  buf : List Nat
  pongMs : Nat
  pingNext : Option Nat
  pongDeadline : Option Nat
  sent : List (List Char)
  emitted : List ClientEv
deriving DecidableEq

/-- The send operation of the source: when the socket is writable,
write the CR/LF-stripped line (the CRLF terminator the source appends
is implicit in `sent` holding one entry per line) and emit a raw event
tagged from client. -/
def sendLine (s : IrcConn) (line : List Char) : IrcConn :=
  if s.writable then
    { s with sent := s.sent ++ [stripCRLF line],
             emitted := s.emitted ++ [ClientEv.rawEv line false] }
  else s

/-- Decimal digits of a timestamp. -/
def natChars (n : Nat) : List Char := (Nat.repr n).data

/-- Keepalive line written by the ping interval callback. -/
def pingLine (t : Nat) : List Char := str "PING :" ++ natChars t

/-- Capability bootstrap line sent by handleSocketConnected. -/
def capLine : List Char := str "CAP LS 302"

/-- Registration line NICK, with the nick stripped of CR/LF. -/
def nickLine (n : List Char) : List Char := str "NICK " ++ stripCRLF n

/-- Registration line USER, with username and gecos stripped of CR/LF. -/
def userLine (u g : List Char) : List Char :=
  str "USER " ++ stripCRLF u ++ str " 0 * :" ++ stripCRLF g

/-- State common to both connect modes right after the transport
connect event at time 0: writable socket, empty buffer, pong timeout
from the options (seconds, default 120), ping interval armed for
30 s from now, and the socket connected event emitted. -/
def connBase (pongTimeout : Option Nat) : IrcConn :=
  { alive := true, writable := true, buf := [],
    pongMs := (pongTimeout.getD 120) * 1000,
    pingNext := some PING_INTERVAL_MS, pongDeadline := none,
    sent := [], emitted := [ClientEv.socketConnectedEv] }

/-- handleSocketConnected of the full-registration mode: send CAP LS
302, NICK and USER, then start the ping timer. -/
def connectedFull (n u g : List Char) (pongTimeout : Option Nat) : IrcConn :=
  sendLine (sendLine (sendLine (connBase pongTimeout) capLine) (nickLine n))
    (userLine u g)

/-- handleRawSocketConnected of the raw mode: no registration lines. -/
def connectedRaw (pongTimeout : Option Nat) : IrcConn := connBase pongTimeout

/-- The two timers of the client. -/
inductive TimerKind where
  | ping
  | pong
deriving DecidableEq

/-- Earliest due timer, if any (the ping interval wins ties, matching
the creation order of the timers in the event loop). -/
def nextTimer (s : IrcConn) : Option (Nat × TimerKind) :=
  match s.pingNext, s.pongDeadline with
  | none, none => none
  | some p, none => some (p, TimerKind.ping)
  | none, some q => some (q, TimerKind.pong)
  | some p, some q =>
    if p ≤ q then some (p, TimerKind.ping) else some (q, TimerKind.pong)

/-- Ping interval callback: send a PING with the current timestamp,
clear any pending pong timeout, and arm a fresh one. -/
def firePing (t : Nat) (s : IrcConn) : IrcConn :=
  let s1 := sendLine s (pingLine t)
  { s1 with pongDeadline := some (t + s.pongMs),
            pingNext := some (t + PING_INTERVAL_MS) }

/-- Destruction of the transport: the socket close handler stops both
timers and the emitter raises the close event. -/
def destroyConn (s : IrcConn) : IrcConn :=
  { s with alive := false, writable := false,
           pingNext := none, pongDeadline := none,
           emitted := s.emitted ++ [ClientEv.closeEv] }

/-- Fire one timer at its due time. -/
def fireTimer : TimerKind → Nat → IrcConn → IrcConn
  | TimerKind.ping, t, s => firePing t s
  | TimerKind.pong, _, s => destroyConn s

/-- Advance the clock to tmax, firing every timer that falls due, in
chronological order.  Fuel bounds the number of firings. -/
def advanceConn : Nat → Nat → IrcConn → IrcConn
  | 0, _, s => s
  | fuel + 1, tmax, s =>
    match nextTimer s with
    | none => s
    | some (t, k) =>
      if t ≤ tmax then advanceConn fuel tmax (fireTimer k t s) else s

/-- handleIrcLine on one decoded non-empty line: any data from the
server proves it is alive, so the pending pong timeout is cleared; the
events of the line are emitted and a PING query is answered. -/
def procLine (dec : List Nat → List Char) (s : IrcConn) (lb : List Nat) :
    IrcConn :=
  let line := dec lb
  let s1 := { s with pongDeadline := none,
                     emitted := s.emitted ++ lineEvents line }
  match pongReply line with
  | some msg => sendLine s1 msg
  | none => s1

/-- handleIncomingData: append the data to the buffer, process every
complete non-empty line, and destroy the transport when the residual
buffer exceeds 2 MiB. -/
def handleData (dec : List Nat → List Char) (s : IrcConn) (d : List Nat) :
    IrcConn :=
  let p := scanLines (s.buf ++ d)
  let s1 := p.1.foldl
    (fun acc lb => if lb.isEmpty then acc else procLine dec acc lb)
    { s with buf := p.2 }
  if MAX_RECEIVE_BUFFER_SIZE < s1.buf.length then destroyConn s1 else s1

/-- Run of the timed client: a schedule of timed data arrivals, then a
final clock advance to tEnd.  Data events of a destroyed socket do not
fire. -/
def runConnT (dec : List Nat → List Char) (fuel : Nat) :
    IrcConn → List (Nat × List Nat) → Nat → IrcConn
  | s, [], tEnd => advanceConn fuel tEnd s
  | s, (t, d) :: evs, tEnd =>
    let s1 := advanceConn fuel t s
    let s2 := if s1.alive then handleData dec s1 d else s1
    runConnT dec fuel s2 evs tEnd

/-- Byte-to-char decoding used in concrete runs. -/
def decBytes : List Nat → List Char := fun bs => bs.map Char.ofNat

/-- Number of CAP LS 302 lines the client has written. -/
def countCap (s : IrcConn) : Nat := s.sent.count capLine

/-! ### Inbound rate limiter (main.ts, ws message handler) -/

/-- Cap of accepted messages per window. -/
def RATE_LIMIT_MAX_MESSAGES : Nat := 50

/-- Fixed window length in milliseconds. -/
def RATE_LIMIT_WINDOW_MS : Nat := 5000

/-- Counters of the fixed-window rate limiter. -/
structure RateState where
  messageCount : Nat
  rateLimitWindowStart : Nat
deriving DecidableEq

/-- One inbound message at absolute time now: when more than the window
length has passed since the window start, reset the counter and restart
the window at now; then count the message; it is accepted when the
counter does not exceed the cap, silently dropped otherwise. -/
def rateStep (s : RateState) (now : Nat) : RateState × Bool :=
  let s1 := if s.rateLimitWindowStart + RATE_LIMIT_WINDOW_MS < now
            then { messageCount := 0, rateLimitWindowStart := now }
            else s
  let s2 := { s1 with messageCount := s1.messageCount + 1 }
  (s2, decide (s2.messageCount ≤ RATE_LIMIT_MAX_MESSAGES))

/-- Process a sequence of message arrival times, returning the final
counters and the acceptance flag of each message. -/
def rateRun : RateState → List Nat → RateState × List Bool
  | s, [] => (s, [])
  | s, t :: ts =>
    let p := rateStep s t
    let q := rateRun p.1 ts
    (q.1, p.2 :: q.2)

/-- Acceptance flags of a sequence of arrivals. -/
def rateAccepts (s : RateState) (ts : List Nat) : List Bool :=
  (rateRun s ts).2

/-! ### Upgrade-request validation (main.ts, httpServer upgrade) -/

/-- Allow-list of encodings accepted by the gateway. -/
def VALID_ENCODINGS : List String :=
  ["utf8", "utf-8", "ascii", "latin1", "binary", "utf16le", "utf-16le",
   "ucs2", "ucs-2", "base64", "hex"]

/-- JavaScript parseInt with radix 10: skip leading whitespace, an
optional sign, then the maximal run of decimal digits; none when that
run is empty. -/
def parseIntTen (s : List Char) : Option Int :=
  let t := s.dropWhile isJsSpace
  let sgn : Bool × List Char :=
    match t with
    | '-' :: r => (true, r)
    | '+' :: r => (false, r)
    | _ => (false, t)
  let ds := sgn.2.takeWhile (fun c => '0' ≤ c && c ≤ '9')
  if ds.isEmpty then none
  else
    let v : Int := Int.ofNat (ds.foldl (fun a c => a * 10 + (c.toNat - 48)) 0)
    some (if sgn.1 then -v else v)

/-- An upgrade request, after URL parsing: the path and the raw values
of the query parameters (none when the parameter is absent). -/
structure UpgradeReq where
  path : String
  host : Option String
  portQ : Option String
  tlsQ : Option String
  encodingQ : Option String
deriving DecidableEq

/-- Options passed to connectRaw of the constructed IrcConnection. -/
structure IrcOptions where
  host : String
  port : Int
  tls : Bool
  encoding : String
deriving DecidableEq

/-- Outcome of the upgrade handler. -/
inductive UpgradeOutcome where
  | notFound
  | badRequest
  | conflict
  | accepted (opts : IrcOptions)
deriving DecidableEq

/-- Parsed port of a request: the source evaluates parseInt only when
the port parameter is present and non-empty (the empty string is falsy)
and otherwise leaves the port null. -/
def portParsed (req : UpgradeReq) : Option Int :=
  match req.portQ with
  | none => none
  | some ps => if ps = "" then none else parseIntTen (str ps)

/-- Effective encoding of a request: the parameter when it is in the
allow-list, utf8 otherwise (also when the parameter is absent). -/
def encodingOf (req : UpgradeReq) : String :=
  let rawEncoding := req.encodingQ.getD "utf8"
  if VALID_ENCODINGS.contains rawEncoding then rawEncoding else "utf8"

/-- The upgrade handler: wrong path yields 404; a falsy host, a falsy
or unparseable port, or a port outside 1..65535 yields 400; an already
connected client yields 409; otherwise the session is created with the
parsed options. -/
def upgradeDecision (req : UpgradeReq) (hasActiveClient : Bool) :
    UpgradeOutcome :=
  if req.path ≠ "/webirc" then UpgradeOutcome.notFound
  else if req.host = none ∨ req.host = some "" then UpgradeOutcome.badRequest
  else
    match portParsed req with
    | none => UpgradeOutcome.badRequest
    | some p =>
      if p < 1 ∨ 65535 < p then UpgradeOutcome.badRequest
      else if hasActiveClient then UpgradeOutcome.conflict
      else
        UpgradeOutcome.accepted
          ⟨req.host.getD "", p, req.tlsQ == some "true", encodingOf req⟩

/-! ### Gateway session and ordered outbound chain

Modelled from the spec: the current gateway source (the main.ts
revision whose behaviour the gateway test suite under `__tests__`
exercises: the send chain that serialises outbound encrypt-and-deliver
operations, and the per-session capture of the WebSocket by the event
handlers) is not present under src; only its tests are.  The model
follows the spec, sections 4.2, 5 and 9: every raw line from the bound
IrcConnection is appended to a FIFO send chain; at most one
encrypt-and-deliver operation is in flight; the operation for the next
line starts only when the previous one has settled; a settled operation
delivers its (encrypted) line only when the WebSocket that originated
it is still open, and a failed encryption delivers nothing; admitting a
new session resets the chain so no state bleeds from a previous
session.  The adversary chooses the event interleaving, in particular
when each encryption settles and whether it succeeds. -/

/-- One outbound encrypt-and-deliver job: a sequence number (jobs are
numbered in emission order), the session that originated it, and the
line. -/
structure Job where
  jid : Nat
  sid : Nat
  line : List Char
deriving DecidableEq

/-- Gateway state: the current session (if any), the next session
number, the set of sessions whose WebSocket has closed (closing is
permanent), the in-flight job of the send chain, the queued jobs, and
the next job number. -/
structure GwState where
  curr : Option Nat
  nextSid : Nat
  closedWs : List Nat
  inFlight : Option Job
  queue : List Job
  nextJid : Nat
deriving DecidableEq

/-- Initial gateway state: no session. -/
def gwInit : GwState := ⟨none, 0, [], none, [], 0⟩

/-- External events of the gateway model. -/
inductive GwEv where
  | admitted
  | closeWs (sid : Nat)
  | rawFrom (sid : Nat) (line : List Char)
  | errFrom (sid : Nat) (msg : List Char)
  | settle (ok : Bool)
deriving DecidableEq

/-- Actions the gateway performs, in order: starting the encryption of
a job, an encryption settling (with its outcome), and the delivery of
an encrypted job to the WebSocket of its session. -/
inductive GwAct where
  | startOp (j : Job)
  | settled (j : Job) (ok : Bool)
  | deliver (j : Job)
deriving DecidableEq

/-- Whether the WebSocket of a session is open. -/
def wsOpen (s : GwState) (sid : Nat) : Bool := !(s.closedWs.contains sid)

/-- Start the next queued job when nothing is in flight. -/
def startNext (s : GwState) : GwState × List GwAct :=
  match s.inFlight, s.queue with
  | none, j :: q => ({ s with inFlight := some j, queue := q },
                     [GwAct.startOp j])
  | _, _ => (s, [])

/-- Append a job for a line emitted by the connection of a session and
start it when the chain is idle. -/
def enqueueJob (s : GwState) (sid : Nat) (line : List Char) :
    GwState × List GwAct :=
  let j : Job := ⟨s.nextJid, sid, line⟩
  startNext { s with queue := s.queue ++ [j], nextJid := s.nextJid + 1 }

/-- One gateway event.  Admission succeeds only when no session is
active (the upgrade handler answers 409 otherwise) and resets the send
chain; closing a WebSocket tears the session down when it is the
current one; raw and error events of a session (also a stale one whose
handlers still fire) enqueue a job that targets that session; a settle
finishes the in-flight operation, delivering only on success to a still
open WebSocket, and starts the next job. -/
def stepGw (s : GwState) (e : GwEv) : GwState × List GwAct :=
  match e with
  | GwEv.admitted =>
    if s.curr = none then
      ({ s with curr := some s.nextSid, nextSid := s.nextSid + 1,
                inFlight := none, queue := [] }, [])
    else (s, [])
  | GwEv.closeWs sid =>
    ({ s with closedWs := sid :: s.closedWs,
              curr := if s.curr = some sid then none else s.curr }, [])
  | GwEv.rawFrom sid line => enqueueJob s sid line
  | GwEv.errFrom sid msg =>
    enqueueJob s sid (str "ERROR :" ++ stripCRLF msg)
  | GwEv.settle ok =>
    match s.inFlight with
    | none => (s, [])
    | some j =>
      let acts := GwAct.settled j ok ::
        (if ok && wsOpen s j.sid then [GwAct.deliver j] else [])
      let p := startNext { s with inFlight := none }
      (p.1, acts ++ p.2)

/-- Execute a sequence of gateway events, collecting the actions. -/
def execGw : GwState → List GwEv → GwState × List GwAct
  | s, [] => (s, [])
  | s, e :: evs =>
    let p := stepGw s e
    let q := execGw p.1 evs
    (q.1, p.2 ++ q.2)

/-- Job numbers delivered, in delivery order. -/
def delivJids (acts : List GwAct) : List Nat :=
  acts.filterMap fun a =>
    match a with
    | GwAct.deliver j => some j.jid
    | _ => none

/-- Lines delivered, in delivery order. -/
def delivLines (acts : List GwAct) : List (List Char) :=
  acts.filterMap fun a =>
    match a with
    | GwAct.deliver j => some j.line
    | _ => none

/-- Start and settle actions of a trace: true for the start of an
encryption, false for a settle. -/
def seProj (acts : List GwAct) : List Bool :=
  acts.filterMap fun a =>
    match a with
    | GwAct.startOp _ => some true
    | GwAct.settled _ _ => some false
    | GwAct.deliver _ => none

/-- Serialisation check: starts and settles must alternate, a start
only when idle and a settle only when busy; returns the final busy
flag, or none when the sequence violates alternation. -/
def seRun : Bool → List Bool → Option Bool
  | b, [] => some b
  | b, t :: r => if t = b then none else seRun t r

/-- Jobs waiting in the chain, the in-flight one first. -/
def pending (s : GwState) : List Job := s.inFlight.toList ++ s.queue

/-- Gateway state right after admitting the first session. -/
def gwAfterAdmit : GwState := (stepGw gwInit GwEv.admitted).1

/-- Invariant of the delivery order: chain jobs carry strictly
increasing numbers below the next number, delivered numbers are
strictly increasing, and everything delivered is older than everything
still pending. -/
def Inv1 (s : GwState) (D : List Nat) : Prop :=
  List.Pairwise (fun a b : Job => a.jid < b.jid) (pending s) ∧
  (∀ j ∈ pending s, j.jid < s.nextJid) ∧
  List.Pairwise (· < ·) D ∧
  (∀ d ∈ D, d < s.nextJid ∧ ∀ j ∈ pending s, d < j.jid)

/-- Invariant of the settle bookkeeping: pending numbers are strict
and bounded, every started job is numbered below the next number,
queued jobs have never been started, settles never outnumber starts,
no job starts twice, and a delivery implies a successful settle. -/
def InvChain (s : GwState) (acts : List GwAct) : Prop :=
  List.Pairwise (fun a b : Job => a.jid < b.jid) (pending s) ∧
  (∀ j ∈ pending s, j.jid < s.nextJid) ∧
  (∀ j : Job, GwAct.startOp j ∈ acts → j.jid < s.nextJid) ∧
  (∀ j ∈ s.queue, acts.count (GwAct.startOp j) = 0) ∧
  (∀ j : Job,
    acts.count (GwAct.settled j true) + acts.count (GwAct.settled j false) +
      (if s.inFlight = some j then 1 else 0) ≤
      acts.count (GwAct.startOp j)) ∧
  (∀ j : Job, acts.count (GwAct.startOp j) ≤ 1) ∧
  (∀ j : Job, GwAct.deliver j ∈ acts → GwAct.settled j true ∈ acts)


/-! ### Theorems -/

theorem scanLines_nil : scanLines [] = ([], []) := rfl

theorem scanLines_single (a : Nat) : scanLines [a] = ([], [a]) := rfl

theorem scanLines_crlf (rest : List Nat) :
    scanLines (13 :: 10 :: rest) =
      (([] : List Nat) :: (scanLines rest).1, (scanLines rest).2) := by
  simp [scanLines]

theorem scanLines_cons2_nil {a b : Nat} {rest : List Nat}
    (h : ¬(a = 13 ∧ b = 10)) (h2 : (scanLines (b :: rest)).1 = []) :
    scanLines (a :: b :: rest) = ([], a :: (scanLines (b :: rest)).2) := by
  simp only [scanLines]
  rw [if_neg h, h2]

theorem scanLines_cons2_cons {a b : Nat} {rest l : List Nat}
    {ls : List (List Nat)}
    (h : ¬(a = 13 ∧ b = 10)) (h2 : (scanLines (b :: rest)).1 = l :: ls) :
    scanLines (a :: b :: rest) =
      ((a :: l) :: ls, (scanLines (b :: rest)).2) := by
  simp only [scanLines]
  rw [if_neg h, h2]

theorem scanLines_flat_append (t : List Nat) :
    ∀ l, scanLines l = ([], l) →
      scanLines (l ++ 13 :: 10 :: t) = (l :: (scanLines t).1, (scanLines t).2) := by
  intro l
  induction l with
  | nil =>
    intro _
    simpa using scanLines_crlf t
  | cons a l ih =>
    intro hflat
    cases l with
    | nil =>
      have hne : ¬(a = 13 ∧ (13 : Nat) = 10) := by simp
      have h2 : (scanLines (13 :: 10 :: t)).1 = [] :: (scanLines t).1 := by
        rw [scanLines_crlf]
      have := scanLines_cons2_cons hne h2
      simpa [scanLines_crlf] using this
    | cons c l2 =>
      by_cases hc : a = 13 ∧ c = 10
      · exfalso
        obtain ⟨ha, hcc⟩ := hc
        subst ha; subst hcc
        rw [scanLines_crlf] at hflat
        simp at hflat
      · cases h1 : (scanLines (c :: l2)).1 with
        | nil =>
          have heq := scanLines_cons2_nil hc h1
          rw [heq] at hflat
          have h2 : (scanLines (c :: l2)).2 = c :: l2 := by
            have := congrArg Prod.snd hflat
            simpa using this
          have hflat2 : scanLines (c :: l2) = ([], c :: l2) := by
            rw [Prod.ext_iff]; exact ⟨h1, h2⟩
          have ihr := ih hflat2
          have hne2 : ¬(a = 13 ∧ c = 10) := hc
          have h3 : (scanLines (c :: (l2 ++ 13 :: 10 :: t))).1 =
              (c :: l2) :: (scanLines t).1 := by
            have : c :: (l2 ++ 13 :: 10 :: t) = (c :: l2) ++ 13 :: 10 :: t := by simp
            rw [this, ihr]
          have h4 : (scanLines (c :: (l2 ++ 13 :: 10 :: t))).2 = (scanLines t).2 := by
            have : c :: (l2 ++ 13 :: 10 :: t) = (c :: l2) ++ 13 :: 10 :: t := by simp
            rw [this, ihr]
          have := scanLines_cons2_cons hne2 h3
          rw [h4] at this
          simpa using this
        | cons l0 ls0 =>
          exfalso
          have heq := scanLines_cons2_cons hc h1
          rw [heq] at hflat
          simp at hflat

theorem joinLines_nil (r : List Nat) : joinLines [] r = r := rfl

theorem joinLines_cons (l : List Nat) (ls : List (List Nat)) (r : List Nat) :
    joinLines (l :: ls) r = l ++ 13 :: 10 :: joinLines ls r := rfl

theorem scanLines_sound :
    ∀ (n : Nat) (b : List Nat), b.length ≤ n →
      joinLines (scanLines b).1 (scanLines b).2 = b ∧
      (∀ l ∈ (scanLines b).1, scanLines l = ([], l)) ∧
      scanLines (scanLines b).2 = ([], (scanLines b).2) := by
  intro n
  induction n with
  | zero =>
    intro b hb
    have : b = [] := List.length_eq_zero.mp (Nat.le_zero.mp hb)
    subst this
    refine ⟨rfl, ?_, rfl⟩
    intro l hl; rw [scanLines_nil] at hl; simp at hl
  | succ n ih =>
    intro b hb
    match b with
    | [] =>
      refine ⟨rfl, ?_, rfl⟩
      intro l hl; rw [scanLines_nil] at hl; simp at hl
    | [a] =>
      refine ⟨rfl, ?_, rfl⟩
      intro l hl; rw [scanLines_single] at hl; simp at hl
    | a :: c :: rest =>
      have hlen : (c :: rest).length ≤ n := by
        simp only [List.length_cons] at hb ⊢; omega
      have hlenr : rest.length ≤ n := by
        simp only [List.length_cons] at hb; omega
      by_cases hc : a = 13 ∧ c = 10
      · obtain ⟨ha, hcc⟩ := hc
        subst ha; subst hcc
        obtain ⟨ihj, ihl, ihr⟩ := ih rest hlenr
        rw [scanLines_crlf]
        refine ⟨?_, ?_, ihr⟩
        · rw [joinLines_cons, ihj]; rfl
        · intro l hl
          rcases List.mem_cons.mp hl with h | h
          · subst h; rfl
          · exact ihl l h
      · obtain ⟨ihj, ihl, ihr⟩ := ih (c :: rest) hlen
        cases h1 : (scanLines (c :: rest)).1 with
        | nil =>
          have h2 : (scanLines (c :: rest)).2 = c :: rest := by
            rw [h1] at ihj; simpa using ihj
          have heq := scanLines_cons2_nil hc h1
          rw [heq, h2]
          refine ⟨rfl, ?_, ?_⟩
          · intro l hl; simp at hl
          · rw [heq, h2]
        | cons l0 ls0 =>
          have heq := scanLines_cons2_cons hc h1
          rw [heq]
          refine ⟨?_, ?_, ?_⟩
          · rw [joinLines_cons]
            rw [h1] at ihj
            rw [joinLines_cons] at ihj
            simpa using ihj
          · intro l hl
            rcases List.mem_cons.mp hl with h | h
            · -- l = a :: l0, show flat
              subst h
              have hl0flat : scanLines l0 = ([], l0) := by
                apply ihl; rw [h1]; exact List.mem_cons_self _ _
              cases l0 with
              | nil => exact scanLines_single a
              | cons d l1 =>
                -- d = c since joinLines ((d::l1)::ls0) _ = c :: rest
                have hd : d = c := by
                  rw [h1] at ihj
                  rw [joinLines_cons] at ihj
                  have := congrArg List.head? ihj
                  simpa using this
                subst hd
                have hne2 : ¬(a = 13 ∧ d = 10) := hc
                have h3 : (scanLines (d :: l1)).1 = [] := by rw [hl0flat]
                have h4 : (scanLines (d :: l1)).2 = d :: l1 := by rw [hl0flat]
                rw [scanLines_cons2_nil hne2 h3, h4]
            · apply ihl; rw [h1]; exact List.mem_cons_of_mem _ h
          · simpa using ihr

theorem scanLines_complete :
    ∀ (ls : List (List Nat)) (r : List Nat),
      (∀ l ∈ ls, scanLines l = ([], l)) → scanLines r = ([], r) →
      scanLines (joinLines ls r) = (ls, r) := by
  intro ls
  induction ls with
  | nil => intro r _ hr; simpa using hr
  | cons l ls ih =>
    intro r hls hr
    rw [joinLines_cons]
    have hlf : scanLines l = ([], l) := hls l (List.mem_cons_self _ _)
    rw [scanLines_flat_append _ l hlf]
    rw [ih r (fun x hx => hls x (List.mem_cons_of_mem _ hx)) hr]

theorem scanLines_sound3 (b : List Nat) :
    joinLines (scanLines b).1 (scanLines b).2 = b ∧
    (∀ l ∈ (scanLines b).1, scanLines l = ([], l)) ∧
    scanLines (scanLines b).2 = ([], (scanLines b).2) :=
  scanLines_sound b.length b le_rfl

theorem joinLines_append_right (ls : List (List Nat)) (r d : List Nat) :
    joinLines ls r ++ d = joinLines ls (r ++ d) := by
  induction ls with
  | nil => rfl
  | cons l ls ih => simp [joinLines_cons, ih]

theorem joinLines_joinLines (ls1 ls2 : List (List Nat)) (r : List Nat) :
    joinLines ls1 (joinLines ls2 r) = joinLines (ls1 ++ ls2) r := by
  induction ls1 with
  | nil => rfl
  | cons l ls ih => simp [joinLines_cons, ih]

theorem scanLines_append (b d : List Nat) :
    scanLines (b ++ d) =
      ((scanLines b).1 ++ (scanLines ((scanLines b).2 ++ d)).1,
       (scanLines ((scanLines b).2 ++ d)).2) := by
  obtain ⟨hj, hls, _⟩ := scanLines_sound3 b
  obtain ⟨hj2, hls2, hr2⟩ := scanLines_sound3 ((scanLines b).2 ++ d)
  have key : b ++ d =
      joinLines ((scanLines b).1 ++ (scanLines ((scanLines b).2 ++ d)).1)
        (scanLines ((scanLines b).2 ++ d)).2 := by
    conv_lhs => rw [← hj]
    rw [joinLines_append_right]
    conv_lhs => rw [← hj2]
    rw [joinLines_joinLines]
  rw [key]
  apply scanLines_complete
  · intro l hl
    rcases List.mem_append.mp hl with h | h
    · exact hls l h
    · exact hls2 l h
  · exact hr2

theorem runFrames_eq :
    ∀ (chunks : List (List Nat)) (buf : List Nat),
      scanLines buf = ([], buf) →
      runFrames buf chunks =
        ((scanLines (buf ++ chunks.flatten)).1.filter (fun l => !l.isEmpty),
         (scanLines (buf ++ chunks.flatten)).2) := by
  intro chunks
  induction chunks with
  | nil =>
    intro buf hbuf
    simp [runFrames, hbuf]
  | cons c cs ih =>
    intro buf hbuf
    have hres := (scanLines_sound3 (buf ++ c)).2.2
    have ihq := ih _ hres
    show (((scanLines (buf ++ c)).1.filter (fun l => !l.isEmpty)) ++
        (runFrames (scanLines (buf ++ c)).2 cs).1,
        (runFrames (scanLines (buf ++ c)).2 cs).2) = _
    rw [ihq]
    have : buf ++ (c :: cs).flatten = (buf ++ c) ++ cs.flatten := by simp
    rw [this, scanLines_append (buf ++ c) cs.flatten]
    simp [List.filter_append]

/-- Claim C4: for every byte stream and every partition of it into
chunks, feeding the chunks one at a time to the data handler emits
exactly the same sequence of non-empty line events, in the same order,
as feeding the entire stream as a single chunk (and leaves the same
residual buffer). -/
theorem claim_C4 :
    ∀ chunks : List (List Nat), runFrames [] chunks = runFrames [] [chunks.flatten] := by
  intro chunks
  rw [runFrames_eq chunks [] rfl, runFrames_eq [chunks.flatten] [] rfl]
  simp

theorem le_joinLines_length (ls : List (List Nat)) (r : List Nat) :
    r.length ≤ (joinLines ls r).length := by
  induction ls with
  | nil => simp [joinLines_nil]
  | cons l ls ih => simp [joinLines_cons]; omega

theorem scanLines_res_length (b : List Nat) :
    (scanLines b).2.length ≤ b.length := by
  conv_rhs => rw [← (scanLines_sound3 b).1]
  exact le_joinLines_length _ _

theorem stepConn_destroyed {s : ConnBuf} (h : s.destroyed = true)
    (d : List Nat) : stepConn s d = s := by
  simp [stepConn, h]

theorem runConn_destroyed {s : ConnBuf} (h : s.destroyed = true) :
    ∀ chunks, runConn s chunks = s := by
  intro chunks
  induction chunks with
  | nil => rfl
  | cons c cs ih => rw [show runConn s (c :: cs) = runConn (stepConn s c) cs from rfl, stepConn_destroyed h, ih]

theorem destroySteps_destroyed {s : ConnBuf} (h : s.destroyed = true) :
    ∀ chunks, destroySteps s chunks = 0 := by
  intro chunks
  induction chunks with
  | nil => rfl
  | cons c cs ih =>
    show (if !s.destroyed && (stepConn s c).destroyed then 1 else 0) +
        destroySteps (stepConn s c) cs = 0
    rw [stepConn_destroyed h, ih, h]
    simp

theorem destroySteps_eq :
    ∀ (chunks : List (List Nat)) (s : ConnBuf), s.destroyed = false →
      destroySteps s chunks =
        (if (runConn s chunks).destroyed then 1 else 0) := by
  intro chunks
  induction chunks with
  | nil => intro s h; simp [destroySteps, runConn, h]
  | cons c cs ih =>
    intro s h
    show (if !s.destroyed && (stepConn s c).destroyed then 1 else 0) +
        destroySteps (stepConn s c) cs =
        (if (runConn (stepConn s c) cs).destroyed then 1 else 0)
    cases h2 : (stepConn s c).destroyed with
    | true =>
      rw [destroySteps_destroyed h2, runConn_destroyed h2, h, h2]
      simp
    | false =>
      rw [ih _ h2]
      simp [h, h2]

theorem runConn_safe :
    ∀ (chunks : List (List Nat)) (s : ConnBuf), s.destroyed = false →
      s.buf.length + chunks.flatten.length ≤ MAX_RECEIVE_BUFFER_SIZE →
      (runConn s chunks).destroyed = false := by
  intro chunks
  induction chunks with
  | nil => intro s h _; simpa [runConn] using h
  | cons c cs ih =>
    intro s h hlen
    show (runConn (stepConn s c) cs).destroyed = false
    have hres : (scanLines (s.buf ++ c)).2.length ≤ s.buf.length + c.length := by
      have := scanLines_res_length (s.buf ++ c)
      simpa using this
    simp only [List.flatten_cons, List.length_append] at hlen
    have hns : ¬ MAX_RECEIVE_BUFFER_SIZE < (scanLines (s.buf ++ c)).2.length := by
      omega
    have hstep : stepConn s c =
        ⟨(scanLines (s.buf ++ c)).2,
         decide (MAX_RECEIVE_BUFFER_SIZE < (scanLines (s.buf ++ c)).2.length)⟩ := by
      simp [stepConn, h]
    apply ih
    · rw [hstep]; simpa using hns
    · rw [hstep]
      show (scanLines (s.buf ++ c)).2.length + cs.flatten.length ≤
        MAX_RECEIVE_BUFFER_SIZE
      omega

/-- Claim C5: the receive buffer never exceeds 2 MiB after line
extraction while the socket lives; a delivery that leaves more than
2 MiB buffered without a CRLF terminator destroys the transport; over
any run from a fresh connection the destroy call fires at most once,
and exactly once when the run ends destroyed; delivering at most 2 MiB
of data consisting of CRLF-terminated lines never destroys it. -/
theorem claim_C5 :
    (∀ (s : ConnBuf) (d : List Nat),
        (stepConn s d).destroyed = false →
        (stepConn s d).buf.length ≤ MAX_RECEIVE_BUFFER_SIZE) ∧
    (∀ (s : ConnBuf) (d : List Nat),
        s.destroyed = false →
        MAX_RECEIVE_BUFFER_SIZE < (scanLines (s.buf ++ d)).2.length →
        (stepConn s d).destroyed = true) ∧
    (∀ chunks : List (List Nat), destroySteps connInit chunks ≤ 1) ∧
    (∀ chunks : List (List Nat),
        (runConn connInit chunks).destroyed = true →
        destroySteps connInit chunks = 1) ∧
    (∀ chunks : List (List Nat),
        chunks.flatten.length ≤ MAX_RECEIVE_BUFFER_SIZE →
        (scanLines chunks.flatten).2 = [] →
        (runConn connInit chunks).destroyed = false ∧
        destroySteps connInit chunks = 0) := by
  refine ⟨?_, ?_, ?_, ?_, ?_⟩
  · intro s d h
    cases hs : s.destroyed with
    | true => rw [stepConn_destroyed hs] at h; rw [hs] at h; exact absurd h (by simp)
    | false =>
      have hstep : stepConn s d =
          ⟨(scanLines (s.buf ++ d)).2,
           decide (MAX_RECEIVE_BUFFER_SIZE < (scanLines (s.buf ++ d)).2.length)⟩ := by
        simp [stepConn, hs]
      rw [hstep] at h ⊢
      simp at h ⊢
      omega
  · intro s d hs hlen
    simp [stepConn, hs]
    exact hlen
  · intro chunks
    rw [destroySteps_eq chunks connInit rfl]
    split <;> simp
  · intro chunks h
    rw [destroySteps_eq chunks connInit rfl, h]
    simp
  · intro chunks hlen _
    have h := runConn_safe chunks connInit rfl
      (by show ([] : List Nat).length + chunks.flatten.length ≤ _
          simpa using hlen)
    exact ⟨h, by rw [destroySteps_eq chunks connInit rfl, h]; simp⟩

theorem pingQuery_eq_true {l : List Char} (h : pingQuery l = true) :
    ∃ r, l = 'P' :: r := by
  rcases l with _ | ⟨c1, _ | ⟨c2, _ | ⟨c3, _ | ⟨c4, _ | ⟨c5, r⟩⟩⟩⟩⟩
  · simp [pingQuery] at h
  · simp [pingQuery] at h
  · simp [pingQuery] at h
  · simp [pingQuery] at h
  · simp [pingQuery] at h
  · simp [pingQuery] at h
    exact ⟨_, by rw [h.1.1.1.1]⟩

theorem welcome_head {cs : List Char} (h : matchWelcome cs = true) :
    ∃ c r, cs = c :: r ∧ (c = ':' ∨ c = '@') := by
  cases cs with
  | nil => simp [matchWelcome, matchWelcomeCore, matchWelcomeTag] at h
  | cons c r =>
    refine ⟨c, r, rfl, ?_⟩
    rcases Bool.or_eq_true_iff.mp h with h1 | h1
    · left
      simp only [matchWelcomeCore, Bool.and_eq_true, beq_iff_eq] at h1
      exact h1.1.1
    · right
      simp only [matchWelcomeTag, Bool.and_eq_true, beq_iff_eq] at h1
      exact h1.1.1

theorem welcome_not_ping {cs : List Char} (h : matchWelcome cs = true) :
    pingQuery cs = false := by
  obtain ⟨c, r, rfl, hc⟩ := welcome_head h
  by_contra hp
  have hp2 : pingQuery (c :: r) = true := by
    cases h2 : pingQuery (c :: r) with
    | true => rfl
    | false => exact absurd h2 hp
  obtain ⟨r2, he⟩ := pingQuery_eq_true hp2
  have : c = 'P' := by injection he
  rcases hc with h3 | h3 <;> (rw [this] at h3; exact absurd h3 (by decide))

/-- Claim C7: a received line triggers the connected signal if and
only if it matches the welcome pattern; the two example welcome lines
match and the PRIVMSG example containing 001 does not. -/
theorem claim_C7 :
    (∀ line : List Char,
        ClientEv.connectedEv ∈ lineEvents line ↔ matchWelcome line = true) ∧
    matchWelcome (str ":irc.example 001 nick :Welcome") = true ∧
    matchWelcome
      (str "@time=2024-01-01T00:00:00Z :irc.example 001 nick :Welcome") =
      true ∧
    matchWelcome (str ":nick!user@host PRIVMSG #ch :code 001 mentioned") =
      false := by
  refine ⟨?_, by decide, by decide, by decide⟩
  intro line
  constructor
  · intro h
    simp only [lineEvents, List.mem_cons] at h
    rcases h with h | h
    · exact absurd h (by simp)
    · by_cases hp : pingQuery line = true
      · rw [if_pos hp] at h; simp at h
      · rw [if_neg hp] at h
        by_cases hw : matchWelcome line = true
        · exact hw
        · rw [if_neg hw] at h; simp at h
  · intro hw
    have hp := welcome_not_ping hw
    simp only [lineEvents, List.mem_cons]
    right
    rw [if_neg (by simp [hp]), if_pos hw]
    simp

theorem rateAccepts_within :
    ∀ (ts : List Nat) (k w : Nat),
      (∀ t ∈ ts, t ≤ w + RATE_LIMIT_WINDOW_MS) →
      rateAccepts ⟨k, w⟩ ts =
        (List.range ts.length).map
          (fun i => decide (k + i + 1 ≤ RATE_LIMIT_MAX_MESSAGES)) := by
  intro ts
  induction ts with
  | nil => intro k w _; rfl
  | cons t ts ih =>
    intro k w h
    have ht : t ≤ w + RATE_LIMIT_WINDOW_MS := h t (List.mem_cons_self _ _)
    have hstep : rateStep ⟨k, w⟩ t = (⟨k + 1, w⟩, decide (k + 1 ≤ RATE_LIMIT_MAX_MESSAGES)) := by
      simp only [rateStep]
      rw [if_neg (by omega)]
    show (rateRun ⟨k, w⟩ (t :: ts)).2 = _
    have hrun : (rateRun ⟨k, w⟩ (t :: ts)).2 =
        (rateStep ⟨k, w⟩ t).2 :: (rateRun (rateStep ⟨k, w⟩ t).1 ts).2 := rfl
    rw [hrun, hstep]
    have ihr := ih (k + 1) w (fun u hu => h u (List.mem_cons_of_mem _ hu))
    show decide (k + 1 ≤ RATE_LIMIT_MAX_MESSAGES) :: rateAccepts ⟨k + 1, w⟩ ts = _
    rw [ihr]
    simp only [List.length_cons]
    rw [List.range_succ_eq_map]
    simp only [List.map_cons, List.map_map]
    refine List.cons_eq_cons.mpr ⟨?_, ?_⟩
    · exact decide_eq_decide.mpr (by omega)
    · apply List.map_congr_left
      intro i _
      simp only [Function.comp_apply]
      rw [decide_eq_decide]
      omega

/-- Claim C6: within a 5-second window starting at the window-start
timestamp exactly the first 50 messages are accepted and every later
message of the window is dropped; a message arriving after the window
elapsed resets the counter and a fresh 50 are accepted. -/
theorem claim_C6 :
    (∀ (w : Nat) (ts : List Nat),
        (∀ t ∈ ts, t ≤ w + RATE_LIMIT_WINDOW_MS) →
        rateAccepts ⟨0, w⟩ ts =
          (List.range ts.length).map
            (fun i => decide (i < RATE_LIMIT_MAX_MESSAGES))) ∧
    (∀ (c w t : Nat) (ts : List Nat),
        w + RATE_LIMIT_WINDOW_MS < t →
        (∀ u ∈ ts, u ≤ t + RATE_LIMIT_WINDOW_MS) →
        rateAccepts ⟨c, w⟩ (t :: ts) =
          (List.range (ts.length + 1)).map
            (fun i => decide (i < RATE_LIMIT_MAX_MESSAGES))) := by
  constructor
  · intro w ts h
    rw [rateAccepts_within ts 0 w h]
    apply List.map_congr_left
    intro i _
    rw [decide_eq_decide]
    omega
  · intro c w t ts hreset h
    have hstep : rateStep ⟨c, w⟩ t = (⟨1, t⟩, decide (1 ≤ RATE_LIMIT_MAX_MESSAGES)) := by
      simp only [rateStep]
      rw [if_pos (by omega)]
    have hrun : rateAccepts ⟨c, w⟩ (t :: ts) =
        (rateStep ⟨c, w⟩ t).2 :: (rateRun (rateStep ⟨c, w⟩ t).1 ts).2 := rfl
    rw [hrun, hstep]
    show decide (1 ≤ RATE_LIMIT_MAX_MESSAGES) :: rateAccepts ⟨1, t⟩ ts = _
    rw [rateAccepts_within ts 1 t h]
    rw [List.range_succ_eq_map]
    simp only [List.map_cons, List.map_map]
    refine List.cons_eq_cons.mpr ⟨?_, ?_⟩
    · exact decide_eq_decide.mpr (by omega)
    · apply List.map_congr_left
      intro i _
      simp only [Function.comp_apply]
      rw [decide_eq_decide]
      omega

theorem claim_C6_witness :
    rateAccepts ⟨0, 0⟩ (List.replicate 55 100) =
      (List.range 55).map (fun i => decide (i < RATE_LIMIT_MAX_MESSAGES)) ∧
    rateAccepts ⟨50, 0⟩ [6000] =
      (List.range 1).map (fun i => decide (i < RATE_LIMIT_MAX_MESSAGES)) := by
  constructor
  · have := claim_C6.1 0 (List.replicate 55 100)
      (by intro t ht
          have : t = 100 := List.eq_of_mem_replicate ht
          subst this
          decide)
    simpa using this
  · have := claim_C6.2 50 0 6000 [] (by decide) (by intro u hu; simp at hu)
    simpa using this

/-- Claim C8: a wrong path yields 404 and no session; a missing or
empty host, or a port that does not parse to an integer in 1..65535,
yields 400 and no session; with valid parameters an active session
yields 409; otherwise the session is created with the parsed host,
port and tls and the allow-listed (else utf8) encoding, and the
host=irc.libera.chat, port=6697, tls=true example yields exactly those
options with encoding utf8. -/
theorem claim_C8 :
    (∀ (req : UpgradeReq) (active : Bool), req.path ≠ "/webirc" →
        upgradeDecision req active = UpgradeOutcome.notFound) ∧
    (∀ (req : UpgradeReq) (active : Bool), req.path = "/webirc" →
        (req.host = none ∨ req.host = some "") →
        upgradeDecision req active = UpgradeOutcome.badRequest) ∧
    (∀ (req : UpgradeReq) (active : Bool), req.path = "/webirc" →
        (∀ p : Int, portParsed req = some p → p < 1 ∨ 65535 < p) →
        upgradeDecision req active = UpgradeOutcome.badRequest) ∧
    (∀ (req : UpgradeReq) (p : Int), req.path = "/webirc" →
        req.host ≠ none → req.host ≠ some "" →
        portParsed req = some p → 1 ≤ p → p ≤ 65535 →
        upgradeDecision req true = UpgradeOutcome.conflict) ∧
    (∀ (req : UpgradeReq) (p : Int), req.path = "/webirc" →
        req.host ≠ none → req.host ≠ some "" →
        portParsed req = some p → 1 ≤ p → p ≤ 65535 →
        upgradeDecision req false =
          UpgradeOutcome.accepted
            ⟨req.host.getD "", p, req.tlsQ == some "true", encodingOf req⟩) ∧
    upgradeDecision
        ⟨"/webirc", some "irc.libera.chat", some "6697", some "true", none⟩
        false =
      UpgradeOutcome.accepted ⟨"irc.libera.chat", 6697, true, "utf8"⟩ := by
  refine ⟨?_, ?_, ?_, ?_, ?_, by decide⟩
  · intro req active h
    simp [upgradeDecision, h]
  · intro req active hp hh
    rw [upgradeDecision, if_neg (by simp [hp]), if_pos hh]
  · intro req active hp hport
    rw [upgradeDecision, if_neg (by simp [hp])]
    by_cases hh : req.host = none ∨ req.host = some ""
    · rw [if_pos hh]
    · rw [if_neg hh]
      cases hq : portParsed req with
      | none => rfl
      | some p =>
        have := hport p hq
        simp only []
        rw [if_pos this]
  · intro req p hp hh1 hh2 hq h1 h2
    rw [upgradeDecision, if_neg (by simp [hp]),
        if_neg (by rintro (h | h); exact hh1 h; exact hh2 h), hq]
    simp only []
    rw [if_neg (by omega)]
    simp
  · intro req p hp hh1 hh2 hq h1 h2
    rw [upgradeDecision, if_neg (by simp [hp]),
        if_neg (by rintro (h | h); exact hh1 h; exact hh2 h), hq]
    simp only []
    rw [if_neg (by omega)]
    simp

theorem claim_C8_witness :
    upgradeDecision ⟨"/other", some "h", some "6667", none, none⟩ false =
      UpgradeOutcome.notFound ∧
    upgradeDecision ⟨"/webirc", none, some "6667", none, none⟩ false =
      UpgradeOutcome.badRequest ∧
    upgradeDecision ⟨"/webirc", some "h", some "abc", none, none⟩ false =
      UpgradeOutcome.badRequest ∧
    upgradeDecision ⟨"/webirc", some "h", some "70000", none, none⟩ false =
      UpgradeOutcome.badRequest ∧
    upgradeDecision ⟨"/webirc", some "h", some "6667", none, none⟩ true =
      UpgradeOutcome.conflict ∧
    upgradeDecision ⟨"/webirc", some "h", some "6667", none, some "latin1"⟩
        false =
      UpgradeOutcome.accepted ⟨"h", 6667, false, "latin1"⟩ := by
  refine ⟨?_, ?_, ?_, ?_, ?_, ?_⟩
  · exact claim_C8.1 _ false (by decide)
  · exact claim_C8.2.1 _ false rfl (Or.inl rfl)
  · exact claim_C8.2.2.1 _ false rfl
      (by intro p hp
          have h0 : portParsed
              ⟨"/webirc", some "h", some "abc", none, none⟩ = none := by
            decide
          rw [h0] at hp
          cases hp)
  · exact claim_C8.2.2.1 _ false rfl
      (by intro p hp
          have h0 : portParsed
              ⟨"/webirc", some "h", some "70000", none, none⟩ =
              some 70000 := by decide
          rw [h0] at hp
          have h1 : (70000 : Int) = p := by injection hp
          omega)
  · exact claim_C8.2.2.2.1 _ 6667 rfl (by decide) (by decide) (by decide)
      (by decide) (by decide)
  · have := claim_C8.2.2.2.2.1
      ⟨"/webirc", some "h", some "6667", none, some "latin1"⟩ 6667 rfl
      (by decide) (by decide) (by decide) (by decide) (by decide)
    simpa using this

theorem stripCRLF_append (a b : List Char) :
    stripCRLF (a ++ b) = stripCRLF a ++ stripCRLF b := by
  simp [stripCRLF, List.filter_append]

theorem ne_capLine_of_head {x : List Char} {c : Char}
    (h : x.head? = some c) (hc : c ≠ 'C') : x ≠ capLine := by
  intro e
  rw [e] at h
  have h3 : capLine.head? = some 'C' := by decide
  rw [h3] at h
  injection h with hce
  exact hc hce.symm

theorem countCap_snoc {sent : List (List Char)} {x : List Char}
    (h : x ≠ capLine) :
    (sent ++ [x]).count capLine = sent.count capLine := by
  rw [List.count_append]
  have h0 : List.count capLine [x] = 0 :=
    List.count_eq_zero.mpr (by simpa using Ne.symm h)
  rw [h0]
  omega

theorem countCap_sendLine {s : IrcConn} {line : List Char}
    (h : stripCRLF line ≠ capLine) :
    countCap (sendLine s line) = countCap s := by
  simp only [sendLine, countCap]
  split
  · exact countCap_snoc h
  · rfl

theorem stripCRLF_head_pingLine (t : Nat) :
    (stripCRLF (pingLine t)).head? = some 'P' := by
  rw [pingLine, stripCRLF_append]
  have h1 : stripCRLF (str "PING :") = str "PING :" := by decide
  rw [h1]
  rfl

theorem pongReply_eq_some {line msg : List Char}
    (h : pongReply line = some msg) :
    msg = str "PONG " ++ line.drop 5 := by
  rw [pongReply] at h
  split at h
  · injection h with h2; exact h2.symm
  · cases h

theorem stripCRLF_head_pong (x : List Char) :
    (stripCRLF (str "PONG " ++ x)).head? = some 'P' := by
  rw [stripCRLF_append]
  have h1 : stripCRLF (str "PONG ") = str "PONG " := by decide
  rw [h1]
  rfl

theorem countCap_procLine (dec : List Nat → List Char) (s : IrcConn)
    (lb : List Nat) : countCap (procLine dec s lb) = countCap s := by
  rw [procLine]
  cases h : pongReply (dec lb) with
  | none => rfl
  | some msg =>
    have hm := pongReply_eq_some h
    have hh : (stripCRLF msg).head? = some 'P' := by
      rw [hm]; exact stripCRLF_head_pong _
    have hne : stripCRLF msg ≠ capLine :=
      ne_capLine_of_head hh (by decide)
    rw [countCap_sendLine hne]
    rfl

theorem countCap_foldl (dec : List Nat → List Char) :
    ∀ (lines : List (List Nat)) (s : IrcConn),
      countCap (lines.foldl
        (fun acc lb => if lb.isEmpty then acc else procLine dec acc lb) s) =
        countCap s := by
  intro lines
  induction lines with
  | nil => intro s; rfl
  | cons l ls ih =>
    intro s
    show countCap (ls.foldl _ (if l.isEmpty then s else procLine dec s l)) = _
    rw [ih]
    split
    · rfl
    · exact countCap_procLine dec s l

theorem countCap_destroyConn (s : IrcConn) :
    countCap (destroyConn s) = countCap s := rfl

theorem countCap_handleData (dec : List Nat → List Char) (s : IrcConn)
    (d : List Nat) : countCap (handleData dec s d) = countCap s := by
  rw [handleData]
  split
  · rw [countCap_destroyConn, countCap_foldl]; rfl
  · rw [countCap_foldl]; rfl

theorem countCap_firePing (t : Nat) (s : IrcConn) :
    countCap (firePing t s) = countCap s := by
  show countCap (sendLine s (pingLine t)) = countCap s
  apply countCap_sendLine
  exact ne_capLine_of_head (stripCRLF_head_pingLine t) (by decide)

theorem countCap_fireTimer (k : TimerKind) (t : Nat) (s : IrcConn) :
    countCap (fireTimer k t s) = countCap s := by
  cases k
  · exact countCap_firePing t s
  · exact countCap_destroyConn s

theorem advanceConn_succ_none {s : IrcConn} {fuel tmax : Nat}
    (h : nextTimer s = none) : advanceConn (fuel + 1) tmax s = s := by
  rw [advanceConn, h]

theorem advanceConn_succ_some {s : IrcConn} {fuel tmax t : Nat}
    {k : TimerKind} (h : nextTimer s = some (t, k)) :
    advanceConn (fuel + 1) tmax s =
      if t ≤ tmax then advanceConn fuel tmax (fireTimer k t s) else s := by
  rw [advanceConn, h]

theorem countCap_advanceConn :
    ∀ (fuel tmax : Nat) (s : IrcConn),
      countCap (advanceConn fuel tmax s) = countCap s := by
  intro fuel
  induction fuel with
  | zero => intro tmax s; rfl
  | succ fuel ih =>
    intro tmax s
    cases h : nextTimer s with
    | none => rw [advanceConn_succ_none h]
    | some tk =>
      obtain ⟨t, k⟩ := tk
      rw [advanceConn_succ_some h]
      split
      · rw [ih, countCap_fireTimer]
      · rfl

theorem runConnT_cons (dec : List Nat → List Char) (fuel : Nat)
    (s : IrcConn) (t : Nat) (d : List Nat) (evs : List (Nat × List Nat))
    (tEnd : Nat) :
    runConnT dec fuel s ((t, d) :: evs) tEnd =
      runConnT dec fuel
        (if (advanceConn fuel t s).alive then
          handleData dec (advanceConn fuel t s) d
         else advanceConn fuel t s) evs tEnd := rfl

theorem countCap_runConnT (dec : List Nat → List Char) (fuel : Nat) :
    ∀ (evs : List (Nat × List Nat)) (s : IrcConn) (tEnd : Nat),
      countCap (runConnT dec fuel s evs tEnd) = countCap s := by
  intro evs
  induction evs with
  | nil => intro s tEnd; exact countCap_advanceConn fuel tEnd s
  | cons e evs ih =>
    intro s tEnd
    obtain ⟨t, d⟩ := e
    rw [runConnT_cons, ih]
    split
    · rw [countCap_handleData, countCap_advanceConn]
    · rw [countCap_advanceConn]

theorem stripCRLF_head_keep {c : Char} {l : List Char}
    (hc : (!(c == '\r') && !(c == '\n')) = true) :
    (stripCRLF (c :: l)).head? = some c := by
  simp only [stripCRLF, List.filter_cons, hc]
  rfl

theorem userLine_cons (u g : List Char) :
    userLine u g =
      'U' :: (str "SER " ++ stripCRLF u ++ str " 0 * :" ++ stripCRLF g) := rfl

theorem nickLine_cons (n : List Char) :
    nickLine n = 'N' :: (str "ICK " ++ stripCRLF n) := rfl

theorem countCap_connectedFull (n u g : List Char) (pt : Option Nat) :
    countCap (connectedFull n u g pt) = 1 := by
  rw [connectedFull]
  have hu : (stripCRLF (userLine u g)).head? = some 'U' := by
    rw [userLine_cons]; exact stripCRLF_head_keep (by decide)
  have hn : (stripCRLF (nickLine n)).head? = some 'N' := by
    rw [nickLine_cons]; exact stripCRLF_head_keep (by decide)
  rw [countCap_sendLine (ne_capLine_of_head hu (by decide))]
  rw [countCap_sendLine (ne_capLine_of_head hn (by decide))]
  have hsc : stripCRLF capLine = capLine := by decide
  simp [sendLine, connBase, countCap, hsc]

/-- Claim C3, amended: on a full-registration connection the client
sends CAP LS 302 exactly once, at transport connect, and never
automatically resends it, for every schedule of incoming data and
every horizon. -/
theorem claim_C3_amended :
    ∀ (dec : List Nat → List Char) (fuel : Nat)
      (evs : List (Nat × List Nat)) (tEnd : Nat) (n u g : List Char)
      (pt : Option Nat),
      countCap (runConnT dec fuel (connectedFull n u g pt) evs tEnd) = 1 := by
  intro dec fuel evs tEnd n u g pt
  rw [countCap_runConnT, countCap_connectedFull]

/-- Claim C3 counterexample: a full-registration connection that
receives no data at all has written CAP LS 302 exactly once by
t = 21000 ms, not the three times the claim requires at +10 s and
+20 s. -/
theorem claim_C3_counterexample :
    countCap (runConnT decBytes 3
      (connectedFull (str "n") (str "u") (str "g") none) [] 21000) = 1 ∧
    (1 : Nat) ≠ 3 :=
  ⟨by decide, by decide⟩

theorem procLine_pongDeadline (dec : List Nat → List Char) (s : IrcConn)
    (lb : List Nat) : (procLine dec s lb).pongDeadline = none := by
  rw [procLine]
  cases pongReply (dec lb) with
  | none => rfl
  | some msg =>
    simp only [sendLine]
    split <;> rfl

theorem procLine_buf (dec : List Nat → List Char) (s : IrcConn)
    (lb : List Nat) : (procLine dec s lb).buf = s.buf := by
  rw [procLine]
  cases pongReply (dec lb) with
  | none => rfl
  | some msg =>
    simp only [sendLine]
    split <;> rfl

theorem foldl_proc_pongDeadline (dec : List Nat → List Char) :
    ∀ (lines : List (List Nat)) (s : IrcConn),
      (lines.foldl
        (fun acc lb => if lb.isEmpty then acc else procLine dec acc lb)
        s).pongDeadline =
        (if lines.any (fun l => !l.isEmpty) then none else s.pongDeadline) := by
  intro lines
  induction lines with
  | nil => intro s; rfl
  | cons l ls ih =>
    intro s
    show (ls.foldl _ (if l.isEmpty then s else procLine dec s l)).pongDeadline = _
    by_cases he : l.isEmpty
    · rw [if_pos he, ih]
      simp [List.any_cons, he]
    · rw [if_neg he, ih]
      have hp := procLine_pongDeadline dec s l
      simp [List.any_cons, he, hp]

theorem foldl_proc_buf (dec : List Nat → List Char) :
    ∀ (lines : List (List Nat)) (s : IrcConn),
      (lines.foldl
        (fun acc lb => if lb.isEmpty then acc else procLine dec acc lb)
        s).buf = s.buf := by
  intro lines
  induction lines with
  | nil => intro s; rfl
  | cons l ls ih =>
    intro s
    show (ls.foldl _ (if l.isEmpty then s else procLine dec s l)).buf = _
    rw [ih]
    split
    · rfl
    · exact procLine_buf dec s l

/-- Claim C10: processing incoming bytes clears the pong deadline if
and only if a complete non-empty CRLF-terminated line is extracted;
in a concrete run with a 20 s pong timeout, raw bytes without a line
terminator arriving at t = 40 s leave the deadline armed, and the
timeout fires at t = 50 s and destroys the transport even though data
arrived in the interim. -/
theorem claim_C10 :
    (∀ (dec : List Nat → List Char) (s : IrcConn) (d : List Nat),
        (scanLines (s.buf ++ d)).2.length ≤ MAX_RECEIVE_BUFFER_SIZE →
        (handleData dec s d).pongDeadline =
          (if (scanLines (s.buf ++ d)).1.any (fun l => !l.isEmpty)
           then none else s.pongDeadline)) ∧
    (runConnT decBytes 6 (connectedRaw (some 20))
        [(40000, [65])] 40000).pongDeadline = some 50000 ∧
    (runConnT decBytes 6 (connectedRaw (some 20))
        [(40000, [65])] 50000).alive = false := by
  refine ⟨?_, by decide, by decide⟩
  intro dec s d hlen
  rw [handleData]
  rw [if_neg (by
    rw [foldl_proc_buf]
    show ¬ MAX_RECEIVE_BUFFER_SIZE < (scanLines (s.buf ++ d)).2.length
    omega)]
  rw [foldl_proc_pongDeadline]

theorem claim_C10_witness :
    (handleData decBytes
        ⟨true, true, [], 20000, some 60000, some 50000, [], []⟩
        [65]).pongDeadline = some 50000 := by
  have h := claim_C10.1 decBytes
    ⟨true, true, [], 20000, some 60000, some 50000, [], []⟩ [65] (by decide)
  rw [h]
  decide

theorem startNext_none_cons {s : GwState} {j : Job} {q : List Job}
    (h1 : s.inFlight = none) (h2 : s.queue = j :: q) :
    startNext s = ({ s with inFlight := some j, queue := q },
                   [GwAct.startOp j]) := by
  rw [startNext, h1, h2]

theorem startNext_none_nil {s : GwState}
    (h1 : s.inFlight = none) (h2 : s.queue = []) :
    startNext s = (s, []) := by
  rw [startNext, h1, h2]

theorem startNext_some {s : GwState} {j : Job} (h1 : s.inFlight = some j) :
    startNext s = (s, []) := by
  rw [startNext, h1]

theorem pending_startNext (s : GwState) :
    pending (startNext s).1 = pending s := by
  cases h1 : s.inFlight with
  | none =>
    cases h2 : s.queue with
    | nil => rw [startNext_none_nil h1 h2]
    | cons j q =>
      rw [startNext_none_cons h1 h2]
      simp [pending, h1, h2]
  | some j => rw [startNext_some h1]

theorem closedWs_startNext (s : GwState) :
    (startNext s).1.closedWs = s.closedWs := by
  cases h1 : s.inFlight with
  | none =>
    cases h2 : s.queue with
    | nil => rw [startNext_none_nil h1 h2]
    | cons j q => rw [startNext_none_cons h1 h2]
  | some j => rw [startNext_some h1]

theorem nextJid_startNext (s : GwState) :
    (startNext s).1.nextJid = s.nextJid := by
  cases h1 : s.inFlight with
  | none =>
    cases h2 : s.queue with
    | nil => rw [startNext_none_nil h1 h2]
    | cons j q => rw [startNext_none_cons h1 h2]
  | some j => rw [startNext_some h1]

theorem delivJids_startNext (s : GwState) :
    delivJids (startNext s).2 = [] := by
  cases h1 : s.inFlight with
  | none =>
    cases h2 : s.queue with
    | nil => rw [startNext_none_nil h1 h2]; rfl
    | cons j q => rw [startNext_none_cons h1 h2]; rfl
  | some j => rw [startNext_some h1]; rfl

theorem enqueueJob_eq (s : GwState) (sid : Nat) (line : List Char) :
    enqueueJob s sid line =
      startNext { s with queue := s.queue ++ [⟨s.nextJid, sid, line⟩],
                         nextJid := s.nextJid + 1 } := rfl

theorem stepGw_admitted (s : GwState) :
    stepGw s GwEv.admitted =
      if s.curr = none then
        ({ s with curr := some s.nextSid, nextSid := s.nextSid + 1,
                  inFlight := none, queue := [] }, [])
      else (s, []) := rfl

theorem stepGw_closeWs (s : GwState) (sid : Nat) :
    stepGw s (GwEv.closeWs sid) =
      ({ s with closedWs := sid :: s.closedWs,
                curr := if s.curr = some sid then none else s.curr }, []) := rfl

theorem stepGw_rawFrom (s : GwState) (sid : Nat) (line : List Char) :
    stepGw s (GwEv.rawFrom sid line) = enqueueJob s sid line := rfl

theorem stepGw_errFrom (s : GwState) (sid : Nat) (msg : List Char) :
    stepGw s (GwEv.errFrom sid msg) =
      enqueueJob s sid (str "ERROR :" ++ stripCRLF msg) := rfl

theorem stepGw_settle_none {s : GwState} {ok : Bool}
    (h : s.inFlight = none) : stepGw s (GwEv.settle ok) = (s, []) := by
  unfold stepGw
  rw [h]

theorem stepGw_settle_some {s : GwState} {ok : Bool} {j : Job}
    (h : s.inFlight = some j) :
    stepGw s (GwEv.settle ok) =
      ((startNext { s with inFlight := none }).1,
       (GwAct.settled j ok ::
         (if ok && wsOpen s j.sid then [GwAct.deliver j] else [])) ++
         (startNext { s with inFlight := none }).2) := by
  unfold stepGw
  rw [h]

theorem execGw_nil (s : GwState) : execGw s [] = (s, []) := rfl

theorem execGw_cons (s : GwState) (e : GwEv) (evs : List GwEv) :
    execGw s (e :: evs) =
      ((execGw (stepGw s e).1 evs).1,
       (stepGw s e).2 ++ (execGw (stepGw s e).1 evs).2) := rfl

theorem delivJids_append (a b : List GwAct) :
    delivJids (a ++ b) = delivJids a ++ delivJids b := by
  simp [delivJids, List.filterMap_append]

theorem pending_inFlight_some {s : GwState} {j : Job}
    (h : s.inFlight = some j) : pending s = j :: s.queue := by
  simp [pending, h]

theorem inv1_enqueue {s : GwState} {D : List Nat} (sid : Nat)
    (line : List Char) (h : Inv1 s D) :
    Inv1 (enqueueJob s sid line).1
      (D ++ delivJids (enqueueJob s sid line).2) := by
  obtain ⟨h1, h2, h3, h4⟩ := h
  rw [enqueueJob_eq]
  rw [delivJids_startNext, List.append_nil]
  have hpend : pending { s with
      queue := s.queue ++ [⟨s.nextJid, sid, line⟩],
      nextJid := s.nextJid + 1 } = pending s ++ [⟨s.nextJid, sid, line⟩] := by
    simp [pending, List.append_assoc]
  refine ⟨?_, ?_, h3, ?_⟩
  · rw [pending_startNext, hpend]
    apply List.pairwise_append.mpr
    refine ⟨h1, List.pairwise_singleton _ _, ?_⟩
    intro a ha b hb
    rw [List.mem_singleton] at hb
    subst hb
    exact h2 a ha
  · intro j hj
    rw [pending_startNext, hpend] at hj
    rw [nextJid_startNext]
    show j.jid < s.nextJid + 1
    rcases List.mem_append.mp hj with hm | hm
    · have := h2 j hm; omega
    · rw [List.mem_singleton] at hm
      subst hm
      simp
  · intro d hd
    have hold := h4 d hd
    constructor
    · rw [nextJid_startNext]
      show d < s.nextJid + 1
      have := hold.1; omega
    · intro j hj
      rw [pending_startNext, hpend] at hj
      rcases List.mem_append.mp hj with hm | hm
      · exact hold.2 j hm
      · rw [List.mem_singleton] at hm
        subst hm
        exact hold.1

theorem inv1_step {s : GwState} {D : List Nat} (e : GwEv) (h : Inv1 s D) :
    Inv1 (stepGw s e).1 (D ++ delivJids (stepGw s e).2) := by
  obtain ⟨h1, h2, h3, h4⟩ := h
  cases e with
  | admitted =>
    rw [stepGw_admitted]
    split
    · refine ⟨?_, ?_, by simpa [delivJids] using h3, ?_⟩
      · simp [pending]
      · intro j hj; simp [pending] at hj
      · intro d hd
        simp [delivJids] at hd
        refine ⟨(h4 d hd).1, ?_⟩
        intro j hj; simp [pending] at hj
    · exact ⟨h1, h2, by simpa [delivJids] using h3, by
        intro d hd
        simp [delivJids] at hd
        exact h4 d hd⟩
  | closeWs sid =>
    rw [stepGw_closeWs]
    exact ⟨h1, h2, by simpa [delivJids] using h3, by
      intro d hd
      simp [delivJids] at hd
      exact h4 d hd⟩
  | rawFrom sid line => exact inv1_enqueue sid line ⟨h1, h2, h3, h4⟩
  | errFrom sid msg => exact inv1_enqueue _ _ ⟨h1, h2, h3, h4⟩
  | settle ok =>
    cases hin : s.inFlight with
    | none =>
      rw [stepGw_settle_none hin]
      exact ⟨h1, h2, by simpa [delivJids] using h3, by
        intro d hd
        simp [delivJids] at hd
        exact h4 d hd⟩
    | some j =>
      rw [stepGw_settle_some hin]
      have hpend := pending_inFlight_some hin
      have hqpair : List.Pairwise (fun a b : Job => a.jid < b.jid) s.queue := by
        rw [hpend] at h1
        exact h1.of_cons
      have hjlt : ∀ b ∈ s.queue, j.jid < b.jid := by
        rw [hpend] at h1
        exact List.pairwise_cons.mp h1 |>.1
      have hdd : delivJids
          ((GwAct.settled j ok ::
            (if ok && wsOpen s j.sid then [GwAct.deliver j] else [])) ++
            (startNext { s with inFlight := none }).2) =
          (if ok && wsOpen s j.sid then [j.jid] else []) := by
        rw [delivJids_append, delivJids_startNext, List.append_nil]
        by_cases hb : (ok && wsOpen s j.sid) = true
        · rw [if_pos hb, if_pos hb]; rfl
        · rw [if_neg hb, if_neg hb]; rfl
      rw [hdd]
      have hpendY : pending { s with inFlight := none } = s.queue := by
        simp [pending]
      refine ⟨?_, ?_, ?_, ?_⟩
      · rw [pending_startNext, hpendY]
        exact hqpair
      · intro j2 hj2
        rw [pending_startNext, hpendY] at hj2
        rw [nextJid_startNext]
        apply h2
        rw [hpend]
        exact List.mem_cons_of_mem _ hj2
      · apply List.pairwise_append.mpr
        refine ⟨h3, ?_, ?_⟩
        · split <;> simp
        · intro a ha b hb
          split at hb
          · rw [List.mem_singleton] at hb
            subst hb
            exact (h4 a ha).2 j (by rw [hpend]; exact List.mem_cons_self _ _)
          · simp at hb
      · intro d hd
        rcases List.mem_append.mp hd with hm | hm
        · have hold := h4 d hm
          refine ⟨by rw [nextJid_startNext]; exact hold.1, ?_⟩
          intro j2 hj2
          rw [pending_startNext, hpendY] at hj2
          exact hold.2 j2 (by rw [hpend]; exact List.mem_cons_of_mem _ hj2)
        · have hjm : d = j.jid := by
            split at hm
            · simpa using hm
            · simp at hm
          subst hjm
          refine ⟨by rw [nextJid_startNext]; exact h2 j (by rw [hpend]; exact List.mem_cons_self _ _), ?_⟩
          intro j2 hj2
          rw [pending_startNext, hpendY] at hj2
          exact hjlt j2 hj2

theorem inv1_exec {s : GwState} {D : List Nat} :
    ∀ (evs : List GwEv), Inv1 s D →
      Inv1 (execGw s evs).1 (D ++ delivJids (execGw s evs).2) := by
  intro evs
  induction evs generalizing s D with
  | nil => intro h; simpa [execGw_nil, delivJids] using h
  | cons e evs ih =>
    intro h
    rw [execGw_cons]
    have hstep := inv1_step e h
    have := ih hstep
    simpa [delivJids_append, List.append_assoc] using this

theorem seProj_append (a b : List GwAct) :
    seProj (a ++ b) = seProj a ++ seProj b := by
  simp [seProj, List.filterMap_append]

theorem seRun_append (b : Bool) (xs ys : List Bool) :
    seRun b (xs ++ ys) = (seRun b xs).bind fun b2 => seRun b2 ys := by
  induction xs generalizing b with
  | nil => rfl
  | cons t r ih =>
    show seRun b (t :: (r ++ ys)) = _
    rw [seRun]
    by_cases ht : t = b
    · rw [if_pos ht]
      rw [show seRun b (t :: r) = none by rw [seRun, if_pos ht]]
      rfl
    · rw [if_neg ht]
      rw [show seRun b (t :: r) = seRun t r by rw [seRun, if_neg ht]]
      exact ih t

theorem seProj_startNext (s : GwState) :
    seProj (startNext s).2 =
      (if s.inFlight = none ∧ s.queue ≠ [] then [true] else []) := by
  cases h1 : s.inFlight with
  | none =>
    cases h2 : s.queue with
    | nil => rw [startNext_none_nil h1 h2]; simp [seProj, h1, h2]
    | cons j q => rw [startNext_none_cons h1 h2]; simp [seProj]
  | some j => rw [startNext_some h1]; simp [seProj, h1]

theorem inFlight_startNext (s : GwState) :
    (startNext s).1.inFlight.isSome =
      (s.inFlight.isSome || !s.queue.isEmpty) := by
  cases h1 : s.inFlight with
  | none =>
    cases h2 : s.queue with
    | nil => rw [startNext_none_nil h1 h2]; simp [h1, h2]
    | cons j q => rw [startNext_none_cons h1 h2]; simp [h2]
  | some j => rw [startNext_some h1]; simp [h1]

theorem seRun_step {s : GwState} (e : GwEv) (hne : e ≠ GwEv.admitted) :
    seRun s.inFlight.isSome (seProj (stepGw s e).2) =
      some (stepGw s e).1.inFlight.isSome := by
  cases e with
  | admitted => exact absurd rfl hne
  | closeWs sid => rw [stepGw_closeWs]; rfl
  | rawFrom sid line =>
    rw [stepGw_rawFrom, enqueueJob_eq]
    rw [seProj_startNext, inFlight_startNext]
    cases h1 : s.inFlight with
    | none =>
      rw [if_pos ⟨rfl, by simp⟩]
      simp [seRun]
    | some j =>
      rw [if_neg (by simp)]
      simp [seRun]
  | errFrom sid msg =>
    rw [stepGw_errFrom, enqueueJob_eq]
    rw [seProj_startNext, inFlight_startNext]
    cases h1 : s.inFlight with
    | none =>
      rw [if_pos ⟨rfl, by simp⟩]
      simp [seRun]
    | some j =>
      rw [if_neg (by simp)]
      simp [seRun]
  | settle ok =>
    cases h1 : s.inFlight with
    | none => rw [stepGw_settle_none h1]; simp [h1, seRun]
    | some j =>
      rw [stepGw_settle_some h1]
      rw [show (GwAct.settled j ok ::
          (if ok && wsOpen s j.sid then [GwAct.deliver j] else [])) ++
          (startNext { s with inFlight := none }).2 =
        GwAct.settled j ok ::
          ((if ok && wsOpen s j.sid then [GwAct.deliver j] else []) ++
           (startNext { s with inFlight := none }).2) from rfl]
      have hproj : seProj (GwAct.settled j ok ::
          ((if ok && wsOpen s j.sid then [GwAct.deliver j] else []) ++
           (startNext { s with inFlight := none }).2)) =
          false :: seProj (startNext { s with inFlight := none }).2 := by
        rw [show seProj (GwAct.settled j ok :: _) = false :: seProj _ from rfl]
        rw [seProj_append]
        congr 1
        split <;> rfl
      rw [hproj, seProj_startNext, inFlight_startNext]
      cases h2 : s.queue with
      | nil =>
        rw [if_neg (by simp)]
        simp [seRun]
      | cons q1 qs =>
        rw [if_pos ⟨rfl, by simp⟩]
        simp [seRun]

theorem seRun_exec {s : GwState} :
    ∀ (evs : List GwEv), GwEv.admitted ∉ evs →
      seRun s.inFlight.isSome (seProj (execGw s evs).2) =
        some (execGw s evs).1.inFlight.isSome := by
  intro evs
  induction evs generalizing s with
  | nil => intro _; rfl
  | cons e evs ih =>
    intro hnm
    rw [execGw_cons, seProj_append, seRun_append]
    rw [seRun_step e (by intro h; exact hnm (by rw [h]; exact List.mem_cons_self _ _))]
    exact ih (fun hm => hnm (List.mem_cons_of_mem _ hm))

/-- Claim C1: in every run of the gateway and every resolution order
of the encryption operations, delivered jobs appear in strictly
increasing emission order (so a line emitted first is delivered
first); within a session, starts and settles of encrypt-and-deliver
operations strictly alternate, so the operation for line N+1 begins
only after the operation for line N has settled; and in the concrete
two-line scenario both lines are delivered in emission order. -/
theorem claim_C1 :
    (∀ evs : List GwEv,
        List.Sorted (· < ·) (delivJids (execGw gwInit evs).2)) ∧
    (∀ evs : List GwEv, GwEv.admitted ∉ evs →
        seRun false (seProj (execGw gwAfterAdmit evs).2) =
          some (execGw gwAfterAdmit evs).1.inFlight.isSome) ∧
    (∀ l1 l2 : List Char,
        delivLines (execGw gwAfterAdmit
          [GwEv.rawFrom 0 l1, GwEv.rawFrom 0 l2,
           GwEv.settle true, GwEv.settle true]).2 = [l1, l2]) := by
  refine ⟨?_, ?_, ?_⟩
  · intro evs
    have h0 : Inv1 gwInit [] := by
      refine ⟨?_, ?_, ?_, ?_⟩ <;> simp [pending, gwInit]
    have := (inv1_exec evs h0).2.2.1
    simpa [List.Sorted] using this
  · intro evs hnm
    have := seRun_exec (s := gwAfterAdmit) evs hnm
    simpa [gwAfterAdmit, stepGw_admitted, gwInit] using this
  · intro l1 l2
    rfl

theorem claim_C1_witness :
    List.Sorted (· < ·) (delivJids (execGw gwInit
      [GwEv.admitted, GwEv.rawFrom 0 (str "A"), GwEv.settle true]).2) ∧
    seRun false (seProj (execGw gwAfterAdmit
        [GwEv.rawFrom 0 (str "A"), GwEv.settle true]).2) =
      some ((execGw gwAfterAdmit
        [GwEv.rawFrom 0 (str "A"), GwEv.settle true]).1.inFlight.isSome) :=
  ⟨claim_C1.1 _, claim_C1.2.1 _ (by decide)⟩

theorem closedWs_step (s : GwState) (e : GwEv) {x : Nat}
    (h : x ∈ s.closedWs) : x ∈ (stepGw s e).1.closedWs := by
  cases e with
  | admitted =>
    rw [stepGw_admitted]
    split
    · exact h
    · exact h
  | closeWs sid =>
    rw [stepGw_closeWs]
    exact List.mem_cons_of_mem _ h
  | rawFrom sid line =>
    rw [stepGw_rawFrom, enqueueJob_eq]
    rw [closedWs_startNext]
    exact h
  | errFrom sid msg =>
    rw [stepGw_errFrom, enqueueJob_eq]
    rw [closedWs_startNext]
    exact h
  | settle ok =>
    cases h1 : s.inFlight with
    | none => rw [stepGw_settle_none h1]; exact h
    | some j =>
      rw [stepGw_settle_some h1]
      rw [closedWs_startNext]
      exact h

theorem deliver_not_startNext (s : GwState) (j : Job) :
    GwAct.deliver j ∉ (startNext s).2 := by
  cases h1 : s.inFlight with
  | none =>
    cases h2 : s.queue with
    | nil => rw [startNext_none_nil h1 h2]; simp
    | cons q1 qs => rw [startNext_none_cons h1 h2]; simp
  | some j2 => rw [startNext_some h1]; simp

theorem deliver_step_closed {s : GwState} (e : GwEv) {j : Job}
    (h : j.sid ∈ s.closedWs) : GwAct.deliver j ∉ (stepGw s e).2 := by
  cases e with
  | admitted =>
    rw [stepGw_admitted]
    split <;> simp
  | closeWs sid => rw [stepGw_closeWs]; simp
  | rawFrom sid line =>
    rw [stepGw_rawFrom, enqueueJob_eq]
    exact deliver_not_startNext _ _
  | errFrom sid msg =>
    rw [stepGw_errFrom, enqueueJob_eq]
    exact deliver_not_startNext _ _
  | settle ok =>
    cases h1 : s.inFlight with
    | none => rw [stepGw_settle_none h1]; simp
    | some j2 =>
      rw [stepGw_settle_some h1]
      intro hmem
      rcases List.mem_append.mp hmem with hm | hm
      · rcases List.mem_cons.mp hm with hm2 | hm2
        · cases hm2
        · split at hm2
          · rename_i hcond
            rw [List.mem_singleton] at hm2
            injection hm2 with hj2
            subst hj2
            have hop : wsOpen s j.sid = true := (Bool.and_eq_true_iff.mp hcond).2
            rw [wsOpen] at hop
            simp at hop
            exact hop h
          · simp at hm2
      · exact deliver_not_startNext _ _ hm

theorem deliver_exec_closed {s : GwState} :
    ∀ (evs : List GwEv) {j : Job}, j.sid ∈ s.closedWs →
      GwAct.deliver j ∉ (execGw s evs).2 := by
  intro evs
  induction evs generalizing s with
  | nil => intro j h; simp [execGw_nil]
  | cons e evs ih =>
    intro j h
    rw [execGw_cons]
    intro hmem
    rcases List.mem_append.mp hmem with hm | hm
    · exact deliver_step_closed e h hm
    · exact ih (closedWs_step s e h) hm

/-- Claim C2: once the WebSocket of session A has closed (and a new
session B is current), any raw or error event subsequently emitted by
the now-unbound connection of A produces a job that is never delivered
to anyone: not to the new client of B and not to the closed socket of
A. -/
theorem claim_C2 :
    ∀ (evs1 : List GwEv) (A B : Nat) (line msg : List Char)
      (evs2 : List GwEv) (j : Job),
      A ∈ (execGw gwInit evs1).1.closedWs →
      (execGw gwInit evs1).1.curr = some B →
      j.sid = A →
      GwAct.deliver j ∉
        (execGw (execGw gwInit evs1).1 (GwEv.rawFrom A line :: evs2)).2 ∧
      GwAct.deliver j ∉
        (execGw (execGw gwInit evs1).1 (GwEv.errFrom A msg :: evs2)).2 := by
  intro evs1 A B line msg evs2 j hA hB hsid
  constructor
  · exact deliver_exec_closed _ (by rw [hsid]; exact hA)
  · exact deliver_exec_closed _ (by rw [hsid]; exact hA)

theorem claim_C2_witness :
    GwAct.deliver ⟨0, 0, str "late line"⟩ ∉
      (execGw (execGw gwInit [GwEv.admitted, GwEv.closeWs 0, GwEv.admitted]).1
        [GwEv.rawFrom 0 (str "late line"), GwEv.settle true]).2 :=
  (claim_C2 [GwEv.admitted, GwEv.closeWs 0, GwEv.admitted] 0 1 (str "late line")
    (str "err") [GwEv.settle true] ⟨0, 0, str "late line"⟩
    (by decide) (by decide) rfl).1

theorem count_snoc_ne {l : List GwAct} {a b : GwAct} (h : b ≠ a) :
    (l ++ [b]).count a = l.count a := by
  rw [List.count_append]
  have h0 : List.count a [b] = 0 :=
    List.count_eq_zero.mpr (by simpa using Ne.symm h)
  omega

theorem count_snoc_eq (l : List GwAct) (a : GwAct) :
    (l ++ [a]).count a = l.count a + 1 := by
  rw [List.count_append]
  simp

theorem invChain_closeWs {s : GwState} {acts : List GwAct} (sid : Nat)
    (h : InvChain s acts) :
    InvChain (stepGw s (GwEv.closeWs sid)).1
      (acts ++ (stepGw s (GwEv.closeWs sid)).2) := by
  rw [stepGw_closeWs, List.append_nil]
  exact h

theorem invChain_admitted {s : GwState} {acts : List GwAct}
    (h : InvChain s acts) :
    InvChain (stepGw s GwEv.admitted).1 (acts ++ (stepGw s GwEv.admitted).2) := by
  obtain ⟨h1, h2, h3, h4, h5, h6, h7⟩ := h
  rw [stepGw_admitted]
  split
  · rw [List.append_nil]
    refine ⟨by simp [pending], by simp [pending], h3, by simp, ?_, h6, h7⟩
    intro j
    rw [if_neg (by simp)]
    have hx := h5 j
    split at hx <;> omega
  · rw [List.append_nil]
    exact ⟨h1, h2, h3, h4, h5, h6, h7⟩

theorem invChain_startNext {X : GwState} {acts : List GwAct}
    (h : InvChain X acts) :
    InvChain (startNext X).1 (acts ++ (startNext X).2) := by
  obtain ⟨h1, h2, h3, h4, h5, h6, h7⟩ := h
  cases hin : X.inFlight with
  | some j0 =>
    rw [startNext_some hin, List.append_nil]
    exact ⟨h1, h2, h3, h4, h5, h6, h7⟩
  | none =>
    cases hq : X.queue with
    | nil =>
      rw [startNext_none_nil hin hq, List.append_nil]
      exact ⟨h1, h2, h3, h4, h5, h6, h7⟩
    | cons q1 qs =>
      rw [startNext_none_cons hin hq]
      have hpendX : pending X = q1 :: qs := by simp [pending, hin, hq]
      have hq1cnt : acts.count (GwAct.startOp q1) = 0 :=
        h4 q1 (by rw [hq]; exact List.mem_cons_self _ _)
      have hq1lt : ∀ b ∈ qs, q1.jid < b.jid := by
        rw [hpendX] at h1
        exact List.pairwise_cons.mp h1 |>.1
      have hpend2 : pending { X with inFlight := some q1, queue := qs } =
          q1 :: qs := by simp [pending]
      refine ⟨?_, ?_, ?_, ?_, ?_, ?_, ?_⟩
      · rw [hpend2, ← hpendX]
        exact h1
      · intro j hj
        rw [hpend2, ← hpendX] at hj
        exact h2 j hj
      · intro j hm
        rcases List.mem_append.mp hm with hm2 | hm2
        · exact h3 j hm2
        · rw [List.mem_singleton] at hm2
          injection hm2 with hj2
          subst hj2
          exact h2 j (by rw [hpendX]; exact List.mem_cons_self _ _)
      · intro j hj
        have hjq : j ∈ qs := by simpa using hj
        have hne : q1 ≠ j := by
          intro he
          have := hq1lt j hjq
          rw [he] at this
          omega
        rw [count_snoc_ne (by simp [hne])]
        exact h4 j (by rw [hq]; exact List.mem_cons_of_mem _ hjq)
      · intro j
        by_cases hjq : j = q1
        · subst hjq
          rw [count_snoc_eq,
              count_snoc_ne (a := GwAct.settled j true) (by simp),
              count_snoc_ne (a := GwAct.settled j false) (by simp)]
          have := h5 j
          rw [hin] at this
          simp only [reduceCtorEq, if_neg] at this
          have hz : acts.count (GwAct.settled j true) +
              acts.count (GwAct.settled j false) = 0 := by
            rw [hq1cnt] at this
            omega
          rw [if_pos rfl]
          omega
        · rw [count_snoc_ne (a := GwAct.settled j true) (by simp),
              count_snoc_ne (a := GwAct.settled j false) (by simp),
              count_snoc_ne (a := GwAct.startOp j) (by simp [Ne.symm hjq])]
          have := h5 j
          rw [hin] at this
          simp only [reduceCtorEq, if_neg] at this
          rw [if_neg (by simp [Ne.symm hjq])]
          simp at this
          omega
      · intro j
        by_cases hjq : j = q1
        · subst hjq
          rw [count_snoc_eq, hq1cnt]
        · rw [count_snoc_ne (by simp [Ne.symm hjq])]
          exact h6 j
      · intro j hm
        rcases List.mem_append.mp hm with hm2 | hm2
        · exact List.mem_append.mpr (Or.inl (h7 j hm2))
        · simp at hm2

theorem invChain_enqueue {s : GwState} {acts : List GwAct} (sid : Nat)
    (line : List Char) (h : InvChain s acts) :
    InvChain (enqueueJob s sid line).1
      (acts ++ (enqueueJob s sid line).2) := by
  rw [enqueueJob_eq]
  apply invChain_startNext
  obtain ⟨h1, h2, h3, h4, h5, h6, h7⟩ := h
  have hnewcount : acts.count (GwAct.startOp ⟨s.nextJid, sid, line⟩) = 0 := by
    apply List.count_eq_zero.mpr
    intro hm
    have := h3 _ hm
    simp at this
  have hpend : pending { s with
      queue := s.queue ++ [⟨s.nextJid, sid, line⟩],
      nextJid := s.nextJid + 1 } = pending s ++ [⟨s.nextJid, sid, line⟩] := by
    simp [pending, List.append_assoc]
  refine ⟨?_, ?_, ?_, ?_, ?_, h6, h7⟩
  · rw [hpend]
    apply List.pairwise_append.mpr
    refine ⟨h1, List.pairwise_singleton _ _, ?_⟩
    intro a ha b hb
    rw [List.mem_singleton] at hb
    subst hb
    exact h2 a ha
  · intro j hj
    rw [hpend] at hj
    show j.jid < s.nextJid + 1
    rcases List.mem_append.mp hj with hm | hm
    · have := h2 j hm; omega
    · rw [List.mem_singleton] at hm; subst hm; simp
  · intro j hm
    have := h3 j hm
    show j.jid < s.nextJid + 1
    omega
  · intro j hj
    have hj2 : j ∈ s.queue ∨ j = ⟨s.nextJid, sid, line⟩ := by simpa using hj
    rcases hj2 with hm | hm
    · exact h4 j hm
    · subst hm
      exact hnewcount
  · intro j
    exact h5 j

theorem startOp_not_mem_settlePart {j j2 : Job} {ok : Bool} {b : Bool} :
    GwAct.startOp j2 ∉
      (GwAct.settled j ok ::
        (if b then [GwAct.deliver j] else []) : List GwAct) := by
  intro hm
  rcases List.mem_cons.mp hm with hm2 | hm2
  · cases hm2
  · split at hm2 <;> simp at hm2

theorem invChain_settle {s : GwState} {acts : List GwAct} (ok : Bool)
    (h : InvChain s acts) :
    InvChain (stepGw s (GwEv.settle ok)).1
      (acts ++ (stepGw s (GwEv.settle ok)).2) := by
  cases hin : s.inFlight with
  | none =>
    rw [stepGw_settle_none hin, List.append_nil]
    exact h
  | some j =>
    rw [stepGw_settle_some hin]
    rw [← List.append_assoc]
    apply invChain_startNext
    obtain ⟨h1, h2, h3, h4, h5, h6, h7⟩ := h
    have hpend : pending s = j :: s.queue := pending_inFlight_some hin
    have hjmem : j ∈ pending s := by rw [hpend]; exact List.mem_cons_self _ _
    have hcountD0 : ∀ a : GwAct, a ≠ GwAct.deliver j →
        (if ok && wsOpen s j.sid then [GwAct.deliver j] else
          ([] : List GwAct)).count a = 0 := by
      intro a ha
      split
      · exact List.count_eq_zero.mpr (by simpa using ha)
      · rfl
    have hcountS : ∀ j2 : Job,
        (acts ++ GwAct.settled j ok ::
          (if ok && wsOpen s j.sid then [GwAct.deliver j] else [])).count
          (GwAct.startOp j2) = acts.count (GwAct.startOp j2) := by
      intro j2
      rw [List.count_append, List.count_cons, hcountD0 _ (by simp)]
      simp
    have hcountT : ∀ (j2 : Job) (b : Bool),
        (acts ++ GwAct.settled j ok ::
          (if ok && wsOpen s j.sid then [GwAct.deliver j] else [])).count
          (GwAct.settled j2 b) =
          acts.count (GwAct.settled j2 b) +
            (if j2 = j ∧ b = ok then 1 else 0) := by
      intro j2 b
      rw [List.count_append, List.count_cons, hcountD0 _ (by simp)]
      by_cases hab : j2 = j ∧ b = ok
      · obtain ⟨he1, he2⟩ := hab
        subst he1; subst he2
        simp
      · rw [if_neg hab]
        have hbeq : (GwAct.settled j ok == GwAct.settled j2 b) = false := by
          simp only [beq_eq_false_iff_ne]
          intro hc
          injection hc with hc1 hc2
          exact hab ⟨hc1.symm, hc2.symm⟩
        rw [hbeq]
        simp
    refine ⟨?_, ?_, ?_, ?_, ?_, ?_, ?_⟩
    · have : pending { s with inFlight := none } = s.queue := by
        simp [pending]
      rw [this]
      rw [hpend] at h1
      exact h1.of_cons
    · intro j2 hj2
      have hq : pending { s with inFlight := none } = s.queue := by
        simp [pending]
      rw [hq] at hj2
      exact h2 j2 (by rw [hpend]; exact List.mem_cons_of_mem _ hj2)
    · intro j2 hm
      rcases List.mem_append.mp hm with hm2 | hm2
      · exact h3 j2 hm2
      · exact absurd hm2 startOp_not_mem_settlePart
    · intro j2 hj2
      rw [hcountS]
      exact h4 j2 (by simpa using hj2)
    · intro j2
      have hite : (if ({ s with inFlight := none } : GwState).inFlight =
          some j2 then (1 : Nat) else 0) = 0 := by simp
      by_cases hj2 : j2 = j
      · subst hj2
        have hx := h5 j2
        rw [hin, if_pos rfl] at hx
        cases ok with
        | true =>
          rw [hcountS, hcountT, hcountT, hite,
              if_pos (show j2 = j2 ∧ (true : Bool) = true from ⟨rfl, rfl⟩),
              if_neg (show ¬(j2 = j2 ∧ (false : Bool) = true) by simp)]
          omega
        | false =>
          rw [hcountS, hcountT, hcountT, hite,
              if_neg (show ¬(j2 = j2 ∧ (true : Bool) = false) by simp),
              if_pos (show j2 = j2 ∧ (false : Bool) = false from ⟨rfl, rfl⟩)]
          omega
      · have hx := h5 j2
        rw [hin, if_neg (show ¬(some j = some j2) from
            fun he => hj2 (Option.some.inj he).symm)] at hx
        rw [hcountS, hcountT, hcountT, hite,
            if_neg (show ¬(j2 = j ∧ (true : Bool) = ok) from
              fun hc => hj2 hc.1),
            if_neg (show ¬(j2 = j ∧ (false : Bool) = ok) from
              fun hc => hj2 hc.1)]
        omega
    · intro j2
      rw [hcountS]
      exact h6 j2
    · intro j2 hm
      rcases List.mem_append.mp hm with hm2 | hm2
      · exact List.mem_append.mpr (Or.inl (h7 j2 hm2))
      · rcases List.mem_cons.mp hm2 with hm3 | hm3
        · cases hm3
        · split at hm3
          · rename_i hcond
            rw [List.mem_singleton] at hm3
            injection hm3 with hj3
            subst hj3
            have hok : ok = true := (Bool.and_eq_true_iff.mp hcond).1
            subst hok
            apply List.mem_append.mpr
            right
            exact List.mem_cons_self _ _
          · simp at hm3

theorem invChain_step {s : GwState} {acts : List GwAct} (e : GwEv)
    (h : InvChain s acts) :
    InvChain (stepGw s e).1 (acts ++ (stepGw s e).2) := by
  cases e with
  | admitted => exact invChain_admitted h
  | closeWs sid => exact invChain_closeWs sid h
  | rawFrom sid line => exact invChain_enqueue sid line h
  | errFrom sid msg => exact invChain_enqueue _ _ h
  | settle ok => exact invChain_settle ok h

theorem invChain_exec {s : GwState} {acts : List GwAct} :
    ∀ (evs : List GwEv), InvChain s acts →
      InvChain (execGw s evs).1 (acts ++ (execGw s evs).2) := by
  intro evs
  induction evs generalizing s acts with
  | nil => intro h; simpa [execGw_nil] using h
  | cons e evs ih =>
    intro h
    rw [execGw_cons]
    have := ih (invChain_step e h)
    simpa [List.append_assoc] using this

/-- Claim C9: a line whose encryption settles with failure is dropped
and never delivered, in any run; and in the concrete three-line run
where the second encryption fails, exactly the first and third lines
are delivered, in order, so subsequent lines are not blocked by the
failure. -/
theorem claim_C9 :
    (∀ (evs : List GwEv) (j : Job),
        GwAct.settled j false ∈ (execGw gwInit evs).2 →
        GwAct.deliver j ∉ (execGw gwInit evs).2) ∧
    (∀ l1 l2 l3 : List Char,
        delivLines (execGw gwAfterAdmit
          [GwEv.rawFrom 0 l1, GwEv.rawFrom 0 l2, GwEv.rawFrom 0 l3,
           GwEv.settle true, GwEv.settle false, GwEv.settle true]).2 =
          [l1, l3]) := by
  constructor
  · intro evs j hF hD
    have h0 : InvChain gwInit [] := by
      refine ⟨?_, ?_, ?_, ?_, ?_, ?_, ?_⟩ <;> simp [pending, gwInit]
    have hc := invChain_exec evs h0
    rw [List.nil_append] at hc
    obtain ⟨-, -, -, -, h5, h6, h7⟩ := hc
    have hT : GwAct.settled j true ∈ (execGw gwInit evs).2 := h7 j hD
    have hTc : 0 < (execGw gwInit evs).2.count (GwAct.settled j true) :=
      List.count_pos_iff.mpr hT
    have hFc : 0 < (execGw gwInit evs).2.count (GwAct.settled j false) :=
      List.count_pos_iff.mpr hF
    have hb := h5 j
    have hs := h6 j
    omega
  · intro l1 l2 l3
    rfl

theorem claim_C9_witness :
    GwAct.deliver ⟨0, 0, str "x1"⟩ ∉
      (execGw gwInit
        [GwEv.admitted, GwEv.rawFrom 0 (str "x1"), GwEv.settle false]).2 :=
  claim_C9.1 _ _ (by decide)

theorem scanLines_no13 :
    ∀ b : List Nat, (∀ x ∈ b, x ≠ 13) → scanLines b = ([], b) := by
  intro b
  induction b with
  | nil => intro _; rfl
  | cons a rest ih =>
    intro h
    have ha : a ≠ 13 := h a (List.mem_cons_self _ _)
    cases rest with
    | nil => exact scanLines_single a
    | cons c rest2 =>
      have hrec : scanLines (c :: rest2) = ([], c :: rest2) :=
        ih (fun x hx => h x (List.mem_cons_of_mem _ hx))
      have heq := scanLines_cons2_nil
        (show ¬(a = 13 ∧ c = 10) from fun hc => ha hc.1)
        (by rw [hrec])
      rw [heq]
      have : (scanLines (c :: rest2)).2 = c :: rest2 := by rw [hrec]
      rw [this]

/-- Witness for claim C5 at concrete inputs. -/
theorem claim_C5_witness :
    (stepConn connInit
      (List.replicate (MAX_RECEIVE_BUFFER_SIZE + 1) 65)).destroyed = true ∧
    destroySteps connInit [[65, 13, 10]] = 0 := by
  constructor
  · apply claim_C5.2.1 connInit _ rfl
    have hflat : scanLines (List.replicate (MAX_RECEIVE_BUFFER_SIZE + 1) 65) =
        ([], List.replicate (MAX_RECEIVE_BUFFER_SIZE + 1) 65) :=
      scanLines_no13 _ (fun x hx => by
        rw [List.eq_of_mem_replicate hx]; decide)
    show MAX_RECEIVE_BUFFER_SIZE <
      (scanLines ([] ++ List.replicate (MAX_RECEIVE_BUFFER_SIZE + 1) 65)).2.length
    rw [List.nil_append, hflat]
    simp
  · exact (claim_C5.2.2.2.2 [[65, 13, 10]] (by decide) (by decide)).2

end SICNet
